import Mathlib

/-!
Verification of the ordinal read-to-gene mapping core of woltka
(`woltka/ordinal.py`), as a shallow embedding in Lean 4.

Python strings are modelled as lists of characters (`Str`), Python dicts
as association lists with insertion-order semantics, Python exceptions
(`KeyError`, `ValueError`, `TypeError`, `IndexError`) as an error type
threaded through `Except`.  Packed coordinate events are plain naturals
(Python integers are unbounded, and the packing never relies on
overflow); the one subtraction that can go negative in Python (the
overlap comparison) is performed on `ℤ`.
-/

/-- Python exception kinds raised by the modelled code paths. -/
inductive PyErr where
  | keyError
  | valueError
  | typeError
  | indexError
deriving DecidableEq, Repr

instance {ε α : Type} [DecidableEq ε] [DecidableEq α] : DecidableEq (Except ε α) := fun x y =>
  match x, y with
  | .ok a, .ok b =>
    if h : a = b then .isTrue (by rw [h]) else .isFalse (by intro hh; cases hh; exact h rfl)
  | .error a, .error b =>
    if h : a = b then .isTrue (by rw [h]) else .isFalse (by intro hh; cases hh; exact h rfl)
  | .ok _, .error _ => .isFalse (by intro hh; cases hh)
  | .error _, .ok _ => .isFalse (by intro hh; cases hh)

/-- Python strings (sequences of characters). -/
abbrev Str := List Char

/-- Python dict lookup `m[k]` returning `none` when the key is absent. -/
def alistGet {κ α : Type} [DecidableEq κ] (m : List (κ × α)) (k : κ) : Option α :=
  match m with
  | [] => none
  | (k', v) :: rest => if k' = k then some v else alistGet rest k

/-- Python dict assignment `m[k] = v`: replaces the value in place when the
key is present, otherwise appends the binding. -/
def alistPut {κ α : Type} [DecidableEq κ] (m : List (κ × α)) (k : κ) (v : α) : List (κ × α) :=
  match m with
  | [] => [(k, v)]
  | (k', v') :: rest =>
    if k' = k then (k, v) :: rest else (k', v') :: alistPut rest k v

/-- Python `dict.pop(k)`: returns the removed value and the remaining dict,
or `none` (a `KeyError` at the call site) when the key is absent. -/
def alistPop {κ α : Type} [DecidableEq κ] (m : List (κ × α)) (k : κ) :
    Option (α × List (κ × α)) :=
  match m with
  | [] => none
  | (k', v') :: rest =>
    if k' = k then some (v', rest)
    else (alistPop rest k).map (fun p => (p.1, (k', v') :: p.2))

theorem alistGet_put {κ α : Type} [DecidableEq κ] (m : List (κ × α)) (k k' : κ) (v : α) :
    alistGet (alistPut m k v) k' = if k' = k then some v else alistGet m k' := by
  induction m with
  | nil =>
    by_cases h : k' = k
    · subst h
      simp [alistPut, alistGet]
    · simp [alistPut, alistGet, h, show k ≠ k' from fun hh => h hh.symm]
  | cons p rest ih =>
    obtain ⟨k₀, v₀⟩ := p
    by_cases h0 : k₀ = k
    · subst h0
      by_cases h : k' = k₀
      · subst h
        simp [alistPut, alistGet]
      · simp [alistPut, alistGet, h, show k₀ ≠ k' from fun hh => h hh.symm]
    · by_cases h : k₀ = k'
      · subst h
        simp [alistPut, alistGet, h0, show k₀ ≠ k from h0]
      · simp [alistPut, alistGet, h0, h, ih]

theorem alistGet_eq_none_iff {κ α : Type} [DecidableEq κ] (m : List (κ × α)) (k : κ) :
    alistGet m k = none ↔ k ∉ m.map Prod.fst := by
  induction m with
  | nil => simp [alistGet]
  | cons p rest ih =>
    obtain ⟨k₀, v₀⟩ := p
    by_cases h0 : k₀ = k
    · subst h0
      simp [alistGet]
    · simp [alistGet, h0, ih, Ne.symm h0]

theorem alistPut_keys_mem {κ α : Type} [DecidableEq κ] (m : List (κ × α)) (k : κ) (v : α)
    (x : κ) : x ∈ (alistPut m k v).map Prod.fst ↔ x ∈ m.map Prod.fst ∨ x = k := by
  induction m with
  | nil => simp [alistPut]
  | cons p rest ih =>
    obtain ⟨k₀, v₀⟩ := p
    by_cases h0 : k₀ = k
    · subst h0
      simp [alistPut]
      tauto
    · simp [alistPut, h0, ih]
      tauto

theorem alistPut_keys_nodup {κ α : Type} [DecidableEq κ] (m : List (κ × α)) (k : κ) (v : α)
    (hnd : (m.map Prod.fst).Nodup) : ((alistPut m k v).map Prod.fst).Nodup := by
  induction m with
  | nil => simp [alistPut]
  | cons p rest ih =>
    obtain ⟨k₀, v₀⟩ := p
    simp only [List.map_cons, List.nodup_cons] at hnd
    by_cases h0 : k₀ = k
    · subst h0
      simpa [alistPut, List.nodup_cons] using hnd
    · simp only [alistPut, if_neg h0, List.map_cons]
      refine List.nodup_cons.mpr ⟨?_, ih hnd.2⟩
      rw [alistPut_keys_mem]
      rintro (h | h)
      · exact hnd.1 h
      · exact h0 h

theorem alistPop_spec {κ α : Type} [DecidableEq κ] (m : List (κ × α)) (k : κ) (v : α)
    (hnd : (m.map Prod.fst).Nodup) (h : alistGet m k = some v) :
    ∃ m', alistPop m k = some (v, m') ∧ ((m'.map Prod.fst).Nodup) ∧
      ∀ k', alistGet m' k' = if k' = k then none else alistGet m k' := by
  induction m with
  | nil => simp [alistGet] at h
  | cons p rest ih =>
    obtain ⟨k₀, v₀⟩ := p
    simp only [List.map_cons, List.nodup_cons] at hnd
    by_cases h0 : k₀ = k
    · subst h0
      simp [alistGet] at h
      subst h
      refine ⟨rest, by simp [alistPop], hnd.2, fun k' => ?_⟩
      by_cases h' : k' = k₀
      · subst h'
        simp [(alistGet_eq_none_iff rest k').mpr hnd.1]
      · simp [alistGet, h', Ne.symm h']
    · simp only [alistGet, if_neg h0] at h
      obtain ⟨m', hpop, hnd', hget⟩ := ih hnd.2 h
      have hk₀ : alistGet m' k₀ = none := by
        rw [hget k₀, if_neg h0, (alistGet_eq_none_iff rest k₀).mpr hnd.1]
      refine ⟨(k₀, v₀) :: m', by simp [alistPop, h0, hpop], ?_, fun k' => ?_⟩
      · exact List.nodup_cons.mpr ⟨(alistGet_eq_none_iff m' k₀).mp hk₀, hnd'⟩
      · by_cases h' : k' = k₀
        · subst h'
          simp [alistGet, fun hc : k' = k => h0 hc]
        · simp [alistGet, Ne.symm h', hget k']

theorem alistGet_mem {κ α : Type} [DecidableEq κ] (m : List (κ × α))
    (hnd : (m.map Prod.fst).Nodup) (k : κ) (v : α) :
    (k, v) ∈ m ↔ alistGet m k = some v := by
  induction m with
  | nil => simp [alistGet]
  | cons p rest ih =>
    obtain ⟨k₀, v₀⟩ := p
    simp only [List.map_cons, List.nodup_cons] at hnd
    by_cases h0 : k₀ = k
    · subst h0
      simp only [alistGet, if_pos rfl, List.mem_cons]
      constructor
      · rintro (h | h)
        · cases h; rfl
        · exact absurd (List.mem_map_of_mem Prod.fst h) (by simpa using hnd.1)
      · rintro h
        cases h
        exact Or.inl rfl
    · simp only [alistGet, if_neg h0, List.mem_cons]
      rw [← ih hnd.2]
      constructor
      · rintro (h | h)
        · cases h; exact absurd rfl h0
        · exact h
      · exact Or.inr

/-!  The core sweep, translated from `woltka/ordinal.py::match_read_gene`.

Each packed coordinate carries (from the least significant bit):
bits 0-29 the gene/read index, bit 30 the gene flag, bits 31-47 the
effective length (0 for end events), bits 48+ the genomic position.
-/

/-- Overlap test of the sweep, from `ordinal.py` line 391/413:
`(code >> 48) - max(gloc, rloc >> 17) >= rloc & 131071`, computed over ℤ
exactly as Python computes it over unbounded signed integers. -/
def overlapOK (pos gloc rloc : ℕ) : Bool :=
  decide (((pos : ℤ) - max (gloc : ℤ) ((rloc >>> 17 : ℕ) : ℤ)) ≥ ((rloc &&& 131071 : ℕ) : ℤ))

/-- One pass of `match_read_gene` over the remaining queue, carrying the
`genes` and `reads` caches.  A `KeyError` from `dict.pop` aborts the
generator, modelled as `Except.error`.  Yielded `(read, gene)` pairs are
collected in order. -/
def matchRun (genes reads : List (ℕ × ℕ)) : List ℕ → Except PyErr (List (ℕ × ℕ))
  | [] => .ok []
  | code :: rest =>
    if code &&& (1 <<< 30) ≠ 0 then
      -- gene event
      if code &&& (1 <<< 31) ≠ 0 then
        -- gene start: genes[code & (1 << 30) - 1] = code >> 48
        matchRun (alistPut genes (code &&& ((1 <<< 30) - 1)) (code >>> 48)) reads rest
      else
        -- gene end: gloc = genes.pop(code & (1 << 30) - 1), then scan reads
        match alistPop genes (code &&& ((1 <<< 30) - 1)) with
        | none => .error .keyError
        | some (gloc, genes') =>
          let ys := (reads.filter (fun rv => overlapOK (code >>> 48) gloc rv.2)).map
            (fun rv => (rv.1, code &&& ((1 <<< 30) - 1)))
          (matchRun genes' reads rest).map (fun t => ys ++ t)
    else
      -- read event
      if (code >>> 31) &&& 131071 ≠ 0 then
        -- read start: reads[code & (1 << 30) - 1] = (code >> 31) - 1
        matchRun genes (alistPut reads (code &&& ((1 <<< 30) - 1)) ((code >>> 31) - 1)) rest
      else
        -- read end: rloc = reads.pop(code & (1 << 30) - 1), then scan genes
        match alistPop reads (code &&& ((1 <<< 30) - 1)) with
        | none => .error .keyError
        | some (rloc, reads') =>
          let ys := (genes.filter (fun gv => overlapOK (code >>> 48) gv.2 rloc)).map
            (fun gv => (code &&& ((1 <<< 30) - 1), gv.1))
          (matchRun genes reads' rest).map (fun t => ys ++ t)

/-- `match_read_gene(queue)`: run the sweep from empty caches. -/
def match_read_gene (queue : List ℕ) : Except PyErr (List (ℕ × ℕ)) :=
  matchRun [] [] queue

/-- `zip(it, it)` over a flat even-length queue: consecutive pairing. -/
def pairUp : List ℕ → List (ℕ × ℕ)
  | s :: e :: rest => (s, e) :: pairUp rest
  | _ => []

/-- Overlap test of the naive scan, from `ordinal.py` line 460:
`min(ge, re) - max(gs, rs) >= L`, over ℤ. -/
def naiveOK (ge re gs rs l : ℕ) : Bool :=
  decide ((min (ge : ℤ) (re : ℤ) - max (gs : ℤ) (rs : ℤ)) ≥ (l : ℤ))

/-- Gene-queue loop of `match_read_gene_naive`. -/
def naiveRun (genes : List (ℕ × ℕ)) (reads : List (ℕ × ℕ × ℕ × ℕ)) :
    List ℕ → Except PyErr (List (ℕ × ℕ))
  | [] => .ok []
  | code :: rest =>
    if code &&& (1 <<< 31) ≠ 0 then
      -- gene start
      naiveRun (alistPut genes (code &&& ((1 <<< 30) - 1)) (code >>> 48)) reads rest
    else
      -- gene end
      match alistPop genes (code &&& ((1 <<< 30) - 1)) with
      | none => .error .keyError
      | some (gs, genes') =>
        let ys := (reads.filter (fun r => naiveOK (code >>> 48) r.2.2.1 gs r.2.1 r.2.2.2)).map
          (fun r => (r.1, code &&& ((1 <<< 30) - 1)))
        (naiveRun genes' reads rest).map (fun t => ys ++ t)

/-- `match_read_gene_naive(geneque, readque)` from `ordinal.py`:
pre-computes `(rid, rs, re, L)` for each read, then nests a read scan
inside a linear walk of the gene queue. -/
def match_read_gene_naive (geneque readque : List ℕ) : Except PyErr (List (ℕ × ℕ)) :=
  let reads := (pairUp readque).map (fun se =>
    (se.1 &&& ((1 <<< 30) - 1), se.1 >>> 48, se.2 >>> 48, (se.1 >>> 31) &&& 131071))
  naiveRun [] reads geneque

/-!  Event packing.

Gene events per `load_gene_coords` (`ordinal.py` lines 284-285):
`(beg << 48) + (3 << 30) + idx` and `(end << 48) + (1 << 30) + idx`.
Read events per `ordinal_mapper` (lines 157-159):
`(beg << 48) + (L << 31) + idx` and `(end << 48) + idx`, where `L` is the
effective length `-int(-length * th // 1)` = `ceil(length * th)`.
-/

/-- Pack a list of gene intervals `(beg, end)` into the flat event queue,
assigning consecutive indices starting at `k`. -/
def packGenesFrom (k : ℕ) : List (ℕ × ℕ) → List ℕ
  | [] => []
  | (b, e) :: t =>
    ((b <<< 48) + (3 <<< 30) + k) :: ((e <<< 48) + (1 <<< 30) + k) :: packGenesFrom (k + 1) t

/-- Pack a list of read alignments `(beg, end, L)` into the flat event
queue, assigning consecutive indices starting at `j`. -/
def packReadsFrom (j : ℕ) : List (ℕ × ℕ × ℕ) → List ℕ
  | [] => []
  | (b, e, l) :: t =>
    ((b <<< 48) + (l <<< 31) + j) :: ((e <<< 48) + j) :: packReadsFrom (j + 1) t

/-- The chunk queue handed to the sweep: `sorted(chain(glocs, locs))`
(`ordinal.py` line 106), with the ascending sort made explicit. -/
def mergedQueue (gs : List (ℕ × ℕ)) (rs : List (ℕ × ℕ × ℕ)) : List ℕ :=
  List.insertionSort (· ≤ ·) (packGenesFrom 0 gs ++ packReadsFrom 0 rs)

/-!  Field extraction lemmas for the packed encoding. -/

theorem and_mask30 (x : ℕ) : x &&& ((1 <<< 30) - 1) = x % 2 ^ 30 := by
  rw [Nat.one_shiftLeft, Nat.and_pow_two_sub_one_eq_mod]

theorem and_mask17 (x : ℕ) : x &&& 131071 = x % 2 ^ 17 := by
  rw [show (131071 : ℕ) = 2 ^ 17 - 1 by norm_num, Nat.and_pow_two_sub_one_eq_mod]

theorem and_bit_one (x n : ℕ) (h : x / 2 ^ n % 2 = 1) : x &&& (1 <<< n) ≠ 0 := by
  intro hc
  rw [Nat.one_shiftLeft, Nat.and_two_pow, Nat.testBit_to_div_mod, h] at hc
  simp at hc

theorem and_bit_zero (x n : ℕ) (h : x / 2 ^ n % 2 = 0) : x &&& (1 <<< n) = 0 := by
  rw [Nat.one_shiftLeft, Nat.and_two_pow, Nat.testBit_to_div_mod, h]
  simp

/-- Index accessors for a gene list (begin, end) and a read list
(begin, end, effective length). -/
def gbeg (gs : List (ℕ × ℕ)) (i : ℕ) : ℕ := (gs.getD i (0, 0)).1

/-- End position of gene `i`. -/
def gend (gs : List (ℕ × ℕ)) (i : ℕ) : ℕ := (gs.getD i (0, 0)).2

/-- Begin position of read alignment `j`. -/
def rbeg (rs : List (ℕ × ℕ × ℕ)) (j : ℕ) : ℕ := (rs.getD j (0, 0, 0)).1

/-- End position of read alignment `j`. -/
def rend (rs : List (ℕ × ℕ × ℕ)) (j : ℕ) : ℕ := (rs.getD j (0, 0, 0)).2.1

/-- Effective length (overlap threshold) of read alignment `j`. -/
def rthr (rs : List (ℕ × ℕ × ℕ)) (j : ℕ) : ℕ := (rs.getD j (0, 0, 0)).2.2

/-- Packed gene start event of gene `i`. -/
def gS (gs : List (ℕ × ℕ)) (i : ℕ) : ℕ := ((gbeg gs i) <<< 48) + (3 <<< 30) + i

/-- Packed gene end event of gene `i`. -/
def gE (gs : List (ℕ × ℕ)) (i : ℕ) : ℕ := ((gend gs i) <<< 48) + (1 <<< 30) + i

/-- Packed read start event of read `j`. -/
def rS (rs : List (ℕ × ℕ × ℕ)) (j : ℕ) : ℕ :=
  ((rbeg rs j) <<< 48) + ((rthr rs j) <<< 31) + j

/-- Packed read end event of read `j`. -/
def rE (rs : List (ℕ × ℕ × ℕ)) (j : ℕ) : ℕ := ((rend rs j) <<< 48) + j

theorem gS_and30 (gs : List (ℕ × ℕ)) (i : ℕ) (hi : i < 2 ^ 30) :
    gS gs i &&& (1 <<< 30) ≠ 0 := by
  apply and_bit_one
  simp only [gS, Nat.shiftLeft_eq]
  omega

theorem gS_and31 (gs : List (ℕ × ℕ)) (i : ℕ) (hi : i < 2 ^ 30) :
    gS gs i &&& (1 <<< 31) ≠ 0 := by
  apply and_bit_one
  simp only [gS, Nat.shiftLeft_eq]
  omega

theorem gS_idx (gs : List (ℕ × ℕ)) (i : ℕ) (hi : i < 2 ^ 30) :
    gS gs i &&& ((1 <<< 30) - 1) = i := by
  rw [and_mask30]
  simp only [gS, Nat.shiftLeft_eq]
  omega

theorem gS_pos (gs : List (ℕ × ℕ)) (i : ℕ) (hi : i < 2 ^ 30) :
    gS gs i >>> 48 = gbeg gs i := by
  simp only [gS, Nat.shiftLeft_eq, Nat.shiftRight_eq_div_pow]
  omega

theorem gE_and30 (gs : List (ℕ × ℕ)) (i : ℕ) (hi : i < 2 ^ 30) :
    gE gs i &&& (1 <<< 30) ≠ 0 := by
  apply and_bit_one
  simp only [gE, Nat.shiftLeft_eq]
  omega

theorem gE_and31 (gs : List (ℕ × ℕ)) (i : ℕ) (hi : i < 2 ^ 30) :
    gE gs i &&& (1 <<< 31) = 0 := by
  apply and_bit_zero
  simp only [gE, Nat.shiftLeft_eq]
  omega

theorem gE_idx (gs : List (ℕ × ℕ)) (i : ℕ) (hi : i < 2 ^ 30) :
    gE gs i &&& ((1 <<< 30) - 1) = i := by
  rw [and_mask30]
  simp only [gE, Nat.shiftLeft_eq]
  omega

theorem gE_pos (gs : List (ℕ × ℕ)) (i : ℕ) (hi : i < 2 ^ 30) :
    gE gs i >>> 48 = gend gs i := by
  simp only [gE, Nat.shiftLeft_eq, Nat.shiftRight_eq_div_pow]
  omega

theorem rS_and30 (rs : List (ℕ × ℕ × ℕ)) (j : ℕ) (hj : j < 2 ^ 30) :
    rS rs j &&& (1 <<< 30) = 0 := by
  apply and_bit_zero
  simp only [rS, Nat.shiftLeft_eq]
  omega

theorem rS_len (rs : List (ℕ × ℕ × ℕ)) (j : ℕ) (hj : j < 2 ^ 30)
    (hl : rthr rs j ≤ 131071) : (rS rs j >>> 31) &&& 131071 = rthr rs j := by
  rw [and_mask17]
  simp only [rS, Nat.shiftLeft_eq, Nat.shiftRight_eq_div_pow]
  omega

theorem rS_idx (rs : List (ℕ × ℕ × ℕ)) (j : ℕ) (hj : j < 2 ^ 30) :
    rS rs j &&& ((1 <<< 30) - 1) = j := by
  rw [and_mask30]
  simp only [rS, Nat.shiftLeft_eq]
  omega

theorem rS_store (rs : List (ℕ × ℕ × ℕ)) (j : ℕ) (hj : j < 2 ^ 30)
    (hl : rthr rs j ≤ 131071) (hl1 : 1 ≤ rthr rs j) :
    (rS rs j >>> 31) - 1 = (rbeg rs j) * 2 ^ 17 + (rthr rs j - 1) := by
  simp only [rS, Nat.shiftLeft_eq, Nat.shiftRight_eq_div_pow]
  omega

theorem rE_and30 (rs : List (ℕ × ℕ × ℕ)) (j : ℕ) (hj : j < 2 ^ 30) :
    rE rs j &&& (1 <<< 30) = 0 := by
  apply and_bit_zero
  simp only [rE, Nat.shiftLeft_eq]
  omega

theorem rE_len (rs : List (ℕ × ℕ × ℕ)) (j : ℕ) (hj : j < 2 ^ 30) :
    (rE rs j >>> 31) &&& 131071 = 0 := by
  rw [and_mask17]
  simp only [rE, Nat.shiftLeft_eq, Nat.shiftRight_eq_div_pow]
  omega

theorem rE_idx (rs : List (ℕ × ℕ × ℕ)) (j : ℕ) (hj : j < 2 ^ 30) :
    rE rs j &&& ((1 <<< 30) - 1) = j := by
  rw [and_mask30]
  simp only [rE, Nat.shiftLeft_eq]
  omega

theorem rE_pos (rs : List (ℕ × ℕ × ℕ)) (j : ℕ) (hj : j < 2 ^ 30) :
    rE rs j >>> 48 = rend rs j := by
  simp only [rE, Nat.shiftLeft_eq, Nat.shiftRight_eq_div_pow]
  omega

theorem overlapOK_iff (pos gloc b c : ℕ) (hc : c < 2 ^ 17) :
    overlapOK pos gloc (b * 2 ^ 17 + c) = true ↔ max gloc b + c ≤ pos := by
  have h1 : (b * 2 ^ 17 + c) >>> 17 = b := by
    rw [Nat.shiftRight_eq_div_pow]
    omega
  have h2 : (b * 2 ^ 17 + c) &&& 131071 = c := by
    rw [and_mask17]
    omega
  rw [overlapOK, h1, h2, decide_eq_true_iff]
  omega

theorem naiveOK_iff (ge re gp rp l : ℕ) :
    naiveOK ge re gp rp l = true ↔ max gp rp + l ≤ min ge re := by
  rw [naiveOK, decide_eq_true_iff]
  omega

/-!  Distinctness and order of packed events. -/

theorem packed_ne_ss (a i a' i' : ℕ) (hi : i < 2 ^ 30) (hi' : i' < 2 ^ 30) (hne : i ≠ i') :
    (a <<< 48) + (3 <<< 30) + i ≠ (a' <<< 48) + (3 <<< 30) + i' := by
  simp only [Nat.shiftLeft_eq]
  omega

theorem packed_ne_se (a i a' i' : ℕ) (hi : i < 2 ^ 30) (hi' : i' < 2 ^ 30) :
    (a <<< 48) + (3 <<< 30) + i ≠ (a' <<< 48) + (1 <<< 30) + i' := by
  simp only [Nat.shiftLeft_eq]
  omega

theorem packed_ne_ee (a i a' i' : ℕ) (hi : i < 2 ^ 30) (hi' : i' < 2 ^ 30) (hne : i ≠ i') :
    (a <<< 48) + (1 <<< 30) + i ≠ (a' <<< 48) + (1 <<< 30) + i' := by
  simp only [Nat.shiftLeft_eq]
  omega

theorem packed_ne_srs (a i b l j : ℕ) (hi : i < 2 ^ 30) (hj : j < 2 ^ 30) :
    (a <<< 48) + (3 <<< 30) + i ≠ (b <<< 48) + (l <<< 31) + j := by
  simp only [Nat.shiftLeft_eq]
  omega

theorem packed_ne_sre (a i b j : ℕ) (hi : i < 2 ^ 30) (hj : j < 2 ^ 30) :
    (a <<< 48) + (3 <<< 30) + i ≠ (b <<< 48) + j := by
  simp only [Nat.shiftLeft_eq]
  omega

theorem packed_ne_ers (a i b l j : ℕ) (hi : i < 2 ^ 30) (hj : j < 2 ^ 30) :
    (a <<< 48) + (1 <<< 30) + i ≠ (b <<< 48) + (l <<< 31) + j := by
  simp only [Nat.shiftLeft_eq]
  omega

theorem packed_ne_ere (a i b j : ℕ) (hi : i < 2 ^ 30) (hj : j < 2 ^ 30) :
    (a <<< 48) + (1 <<< 30) + i ≠ (b <<< 48) + j := by
  simp only [Nat.shiftLeft_eq]
  omega

theorem packed_ne_rsrs (b l j b' l' j' : ℕ) (hj : j < 2 ^ 30) (hj' : j' < 2 ^ 30)
    (hne : j ≠ j') : (b <<< 48) + (l <<< 31) + j ≠ (b' <<< 48) + (l' <<< 31) + j' := by
  simp only [Nat.shiftLeft_eq]
  omega

theorem packed_ne_rsre (b l j b' j' : ℕ) (hj : j < 2 ^ 30) (hj' : j' < 2 ^ 30)
    (hl1 : 1 ≤ l) (hl : l ≤ 131071) :
    (b <<< 48) + (l <<< 31) + j ≠ (b' <<< 48) + j' := by
  simp only [Nat.shiftLeft_eq]
  omega

theorem packed_ne_rere (b j b' j' : ℕ) (hj : j < 2 ^ 30) (hj' : j' < 2 ^ 30) (hne : j ≠ j') :
    (b <<< 48) + j ≠ (b' <<< 48) + j' := by
  simp only [Nat.shiftLeft_eq]
  omega

theorem gS_lt_gE (gs : List (ℕ × ℕ)) (i : ℕ) (hi : i < 2 ^ 30)
    (hbe : gbeg gs i < gend gs i) : gS gs i < gE gs i := by
  simp only [gS, gE, Nat.shiftLeft_eq]
  omega

theorem rS_lt_rE (rs : List (ℕ × ℕ × ℕ)) (j : ℕ) (hj : j < 2 ^ 30)
    (hbe : rbeg rs j < rend rs j) (hl : rthr rs j ≤ 131071) : rS rs j < rE rs j := by
  simp only [rS, rE, Nat.shiftLeft_eq]
  omega

theorem gE_lt_rE_iff (gs : List (ℕ × ℕ)) (rs : List (ℕ × ℕ × ℕ)) (i j : ℕ)
    (hi : i < 2 ^ 30) (hj : j < 2 ^ 30) :
    gE gs i < rE rs j ↔ gend gs i < rend rs j := by
  simp only [gE, rE, Nat.shiftLeft_eq]
  omega

theorem rE_lt_gE_iff (gs : List (ℕ × ℕ)) (rs : List (ℕ × ℕ × ℕ)) (i j : ℕ)
    (hi : i < 2 ^ 30) (hj : j < 2 ^ 30) :
    rE rs j < gE gs i ↔ rend rs j ≤ gend gs i := by
  simp only [gE, rE, Nat.shiftLeft_eq]
  omega

theorem rS_lt_gE_iff (gs : List (ℕ × ℕ)) (rs : List (ℕ × ℕ × ℕ)) (i j : ℕ)
    (hi : i < 2 ^ 30) (hj : j < 2 ^ 30) (hl : rthr rs j ≤ 131071) (hl1 : 1 ≤ rthr rs j) :
    rS rs j < gE gs i ↔ rbeg rs j < gend gs i := by
  simp only [rS, gE, Nat.shiftLeft_eq]
  omega

theorem gS_lt_rE_iff (gs : List (ℕ × ℕ)) (rs : List (ℕ × ℕ × ℕ)) (i j : ℕ)
    (hi : i < 2 ^ 30) (hj : j < 2 ^ 30) :
    gS gs i < rE rs j ↔ gbeg gs i < rend rs j := by
  simp only [gS, rE, Nat.shiftLeft_eq]
  omega

/-!  Membership in the packed queues. -/

theorem mem_packGenesFrom (t : List (ℕ × ℕ)) : ∀ (k c : ℕ),
    c ∈ packGenesFrom k t ↔ ∃ i, i < t.length ∧
      (c = (((t.getD i (0, 0)).1) <<< 48) + (3 <<< 30) + (k + i) ∨
       c = (((t.getD i (0, 0)).2) <<< 48) + (1 <<< 30) + (k + i)) := by
  induction t with
  | nil => intro k c; simp [packGenesFrom]
  | cons p t ih =>
    intro k c
    obtain ⟨b, e⟩ := p
    simp only [packGenesFrom, List.mem_cons, ih (k + 1)]
    constructor
    · rintro (h | h | ⟨i, hi, h⟩)
      · exact ⟨0, by simp, Or.inl (by simpa using h)⟩
      · exact ⟨0, by simp, Or.inr (by simpa using h)⟩
      · refine ⟨i + 1, by simpa using hi, ?_⟩
        simpa [Nat.add_assoc, Nat.add_comm 1 i] using h
    · rintro ⟨i, hi, h⟩
      match i with
      | 0 =>
        rcases h with h | h
        · exact Or.inl (by simpa using h)
        · exact Or.inr (Or.inl (by simpa using h))
      | (i' + 1) =>
        refine Or.inr (Or.inr ⟨i', by simpa using hi, ?_⟩)
        simpa [Nat.add_assoc, Nat.add_comm 1 i'] using h

theorem mem_packReadsFrom (t : List (ℕ × ℕ × ℕ)) : ∀ (k c : ℕ),
    c ∈ packReadsFrom k t ↔ ∃ j, j < t.length ∧
      (c = (((t.getD j (0, 0, 0)).1) <<< 48) + (((t.getD j (0, 0, 0)).2.2) <<< 31) + (k + j) ∨
       c = (((t.getD j (0, 0, 0)).2.1) <<< 48) + (k + j)) := by
  induction t with
  | nil => intro k c; simp [packReadsFrom]
  | cons p t ih =>
    intro k c
    obtain ⟨b, e, l⟩ := p
    simp only [packReadsFrom, List.mem_cons, ih (k + 1)]
    constructor
    · rintro (h | h | ⟨j, hj, h⟩)
      · exact ⟨0, by simp, Or.inl (by simpa using h)⟩
      · exact ⟨0, by simp, Or.inr (by simpa using h)⟩
      · refine ⟨j + 1, by simpa using hj, ?_⟩
        simpa [Nat.add_assoc, Nat.add_comm 1 j] using h
    · rintro ⟨j, hj, h⟩
      match j with
      | 0 =>
        rcases h with h | h
        · exact Or.inl (by simpa using h)
        · exact Or.inr (Or.inl (by simpa using h))
      | (j' + 1) =>
        refine Or.inr (Or.inr ⟨j', by simpa using hj, ?_⟩)
        simpa [Nat.add_assoc, Nat.add_comm 1 j'] using h

theorem mem_packGenes (gs : List (ℕ × ℕ)) (c : ℕ) :
    c ∈ packGenesFrom 0 gs ↔ ∃ i, i < gs.length ∧ (c = gS gs i ∨ c = gE gs i) := by
  rw [mem_packGenesFrom]
  simp only [gS, gE, gbeg, gend, Nat.zero_add]

theorem mem_packReads (rs : List (ℕ × ℕ × ℕ)) (c : ℕ) :
    c ∈ packReadsFrom 0 rs ↔ ∃ j, j < rs.length ∧ (c = rS rs j ∨ c = rE rs j) := by
  rw [mem_packReadsFrom]
  simp only [rS, rE, rbeg, rend, rthr, Nat.zero_add]

theorem packed_ne_rsre' (b l j b' j' : ℕ) (hj : j < 2 ^ 30) (hj' : j' < 2 ^ 30)
    (hne : j ≠ j') : (b <<< 48) + (l <<< 31) + j ≠ (b' <<< 48) + j' := by
  simp only [Nat.shiftLeft_eq]
  omega

theorem getD_mem_of_lt {α : Type} (l : List α) (i : ℕ) (d : α) (h : i < l.length) :
    l.getD i d ∈ l := by
  induction l generalizing i with
  | nil => simp at h
  | cons a t ih =>
    match i with
    | 0 => simp [List.getD]
    | (i' + 1) =>
      simp only [List.getD_cons_succ]
      exact List.mem_cons_of_mem a (ih i' (by simpa using h))

theorem nodup_packGenesFrom (t : List (ℕ × ℕ)) : ∀ k, k + t.length ≤ 2 ^ 30 →
    (packGenesFrom k t).Nodup := by
  induction t with
  | nil => intro k _; simp [packGenesFrom]
  | cons p t ih =>
    intro k hb
    obtain ⟨b, e⟩ := p
    simp only [List.length_cons] at hb
    have hk : k < 2 ^ 30 := by omega
    refine List.nodup_cons.mpr ⟨?_, List.nodup_cons.mpr ⟨?_, ih (k + 1) (by omega)⟩⟩
    · intro hmem
      rcases List.mem_cons.mp hmem with h | h
      · exact packed_ne_se b k e k hk hk h
      · rcases (mem_packGenesFrom t (k + 1) _).mp h with ⟨i, hi, hcase | hcase⟩
        · exact packed_ne_ss b k _ (k + 1 + i) hk (by omega) (by omega) hcase
        · exact packed_ne_se b k _ (k + 1 + i) hk (by omega) hcase
    · intro hmem
      rcases (mem_packGenesFrom t (k + 1) _).mp hmem with ⟨i, hi, hcase | hcase⟩
      · exact packed_ne_se _ (k + 1 + i) e k (by omega) hk hcase.symm
      · exact packed_ne_ee e k _ (k + 1 + i) hk (by omega) (by omega) hcase
    
theorem nodup_packReadsFrom (t : List (ℕ × ℕ × ℕ)) : ∀ k, k + t.length ≤ 2 ^ 30 →
    (∀ x ∈ t, 1 ≤ x.2.2 ∧ x.2.2 ≤ 131071) → (packReadsFrom k t).Nodup := by
  induction t with
  | nil => intro k _ _; simp [packReadsFrom]
  | cons p t ih =>
    intro k hb hw
    obtain ⟨b, e, l⟩ := p
    simp only [List.length_cons] at hb
    have hk : k < 2 ^ 30 := by omega
    have hwl := hw (b, e, l) (List.mem_cons_self _ _)
    refine List.nodup_cons.mpr ⟨?_, List.nodup_cons.mpr
      ⟨?_, ih (k + 1) (by omega) (fun x hx => hw x (List.mem_cons_of_mem _ hx))⟩⟩
    · intro hmem
      rcases List.mem_cons.mp hmem with h | h
      · exact packed_ne_rsre b l k e k hk hk hwl.1 hwl.2 h
      · rcases (mem_packReadsFrom t (k + 1) _).mp h with ⟨j, hj, hcase | hcase⟩
        · exact packed_ne_rsrs b l k _ _ (k + 1 + j) hk (by omega) (by omega) hcase
        · exact packed_ne_rsre' b l k _ (k + 1 + j) hk (by omega) (by omega) hcase
    · intro hmem
      rcases (mem_packReadsFrom t (k + 1) _).mp hmem with ⟨j, hj, hcase | hcase⟩
      · exact packed_ne_rsre' _ _ (k + 1 + j) e k (by omega) hk (by omega) hcase.symm
      · exact packed_ne_rere e k _ (k + 1 + j) hk (by omega) (by omega) hcase

theorem nodup_events (gs : List (ℕ × ℕ)) (rs : List (ℕ × ℕ × ℕ))
    (hgl : gs.length ≤ 2 ^ 30) (hrl : rs.length ≤ 2 ^ 30)
    (hw : ∀ x ∈ rs, 1 ≤ x.2.2 ∧ x.2.2 ≤ 131071) :
    (packGenesFrom 0 gs ++ packReadsFrom 0 rs).Nodup := by
  rw [List.nodup_append]
  refine ⟨nodup_packGenesFrom gs 0 (by omega), nodup_packReadsFrom rs 0 (by omega) hw, ?_⟩
  intro c hcg hcr
  rcases (mem_packGenes gs c).mp hcg with ⟨i, hi, hgcase⟩
  rcases (mem_packReads rs c).mp hcr with ⟨j, hj, hrcase⟩
  have hi30 : i < 2 ^ 30 := by omega
  have hj30 : j < 2 ^ 30 := by omega
  rcases hgcase with h1 | h1 <;> rcases hrcase with h2 | h2
  · exact packed_ne_srs _ i _ _ j hi30 hj30 (h1 ▸ h2)
  · exact packed_ne_sre _ i _ j hi30 hj30 (h1 ▸ h2)
  · exact packed_ne_ers _ i _ _ j hi30 hj30 (h1 ▸ h2)
  · exact packed_ne_ere _ i _ j hi30 hj30 (h1 ▸ h2)

/-- Every element of the merged queue is a well-indexed event. -/
theorem mem_mergedQueue (gs : List (ℕ × ℕ)) (rs : List (ℕ × ℕ × ℕ)) (c : ℕ) :
    c ∈ mergedQueue gs rs ↔
      (∃ i, i < gs.length ∧ (c = gS gs i ∨ c = gE gs i)) ∨
      (∃ j, j < rs.length ∧ (c = rS rs j ∨ c = rE rs j)) := by
  rw [mergedQueue, (List.perm_insertionSort (· ≤ ·) _).mem_iff, List.mem_append,
    mem_packGenes, mem_packReads]

/-- The merged queue is strictly ascending. -/
theorem mergedQueue_pairwise (gs : List (ℕ × ℕ)) (rs : List (ℕ × ℕ × ℕ))
    (hgl : gs.length ≤ 2 ^ 30) (hrl : rs.length ≤ 2 ^ 30)
    (hw : ∀ x ∈ rs, 1 ≤ x.2.2 ∧ x.2.2 ≤ 131071) :
    (mergedQueue gs rs).Pairwise (· < ·) := by
  have hsorted : (mergedQueue gs rs).Pairwise (· ≤ ·) :=
    List.sorted_insertionSort (· ≤ ·) _
  have hnd : (mergedQueue gs rs).Nodup :=
    ((List.perm_insertionSort (· ≤ ·) _).nodup_iff).mpr (nodup_events gs rs hgl hrl hw)
  exact (hsorted.and hnd).imp (fun hp => lt_of_le_of_ne hp.1 hp.2)

/-!  Shape-level distinctness, specialized to the event constructors. -/

theorem gS_ne_gE (gs gs' : List (ℕ × ℕ)) (i i' : ℕ) (hi : i < 2 ^ 30) (hi' : i' < 2 ^ 30) :
    gS gs i ≠ gE gs' i' := packed_ne_se _ _ _ _ hi hi'

theorem gS_ne_gS (gs : List (ℕ × ℕ)) (i i' : ℕ) (hi : i < 2 ^ 30) (hi' : i' < 2 ^ 30)
    (hne : i ≠ i') : gS gs i ≠ gS gs i' := packed_ne_ss _ _ _ _ hi hi' hne

theorem gE_ne_gE (gs : List (ℕ × ℕ)) (i i' : ℕ) (hi : i < 2 ^ 30) (hi' : i' < 2 ^ 30)
    (hne : i ≠ i') : gE gs i ≠ gE gs i' := packed_ne_ee _ _ _ _ hi hi' hne

theorem gS_ne_rS (gs : List (ℕ × ℕ)) (rs : List (ℕ × ℕ × ℕ)) (i j : ℕ)
    (hi : i < 2 ^ 30) (hj : j < 2 ^ 30) : gS gs i ≠ rS rs j := packed_ne_srs _ _ _ _ _ hi hj

theorem gS_ne_rE (gs : List (ℕ × ℕ)) (rs : List (ℕ × ℕ × ℕ)) (i j : ℕ)
    (hi : i < 2 ^ 30) (hj : j < 2 ^ 30) : gS gs i ≠ rE rs j := packed_ne_sre _ _ _ _ hi hj

theorem gE_ne_rS (gs : List (ℕ × ℕ)) (rs : List (ℕ × ℕ × ℕ)) (i j : ℕ)
    (hi : i < 2 ^ 30) (hj : j < 2 ^ 30) : gE gs i ≠ rS rs j := packed_ne_ers _ _ _ _ _ hi hj

theorem gE_ne_rE (gs : List (ℕ × ℕ)) (rs : List (ℕ × ℕ × ℕ)) (i j : ℕ)
    (hi : i < 2 ^ 30) (hj : j < 2 ^ 30) : gE gs i ≠ rE rs j := packed_ne_ere _ _ _ _ hi hj

theorem rS_ne_rS (rs : List (ℕ × ℕ × ℕ)) (j j' : ℕ) (hj : j < 2 ^ 30) (hj' : j' < 2 ^ 30)
    (hne : j ≠ j') : rS rs j ≠ rS rs j' := packed_ne_rsrs _ _ _ _ _ _ hj hj' hne

theorem rS_ne_rE (rs rs' : List (ℕ × ℕ × ℕ)) (j j' : ℕ) (hj : j < 2 ^ 30) (hj' : j' < 2 ^ 30)
    (hne : j ≠ j') : rS rs j ≠ rE rs' j' := packed_ne_rsre' _ _ _ _ _ hj hj' hne

theorem rS_ne_rE_self (rs : List (ℕ × ℕ × ℕ)) (j j' : ℕ) (hj : j < 2 ^ 30) (hj' : j' < 2 ^ 30)
    (hl1 : 1 ≤ rthr rs j) (hl : rthr rs j ≤ 131071) : rS rs j ≠ rE rs j' :=
  packed_ne_rsre _ _ _ _ _ hj hj' hl1 hl

theorem rE_ne_rE (rs : List (ℕ × ℕ × ℕ)) (j j' : ℕ) (hj : j < 2 ^ 30) (hj' : j' < 2 ^ 30)
    (hne : j ≠ j') : rE rs j ≠ rE rs j' := packed_ne_rere _ _ _ _ hj hj' hne

/-!  One-step unfoldings of the sweep at each event shape. -/

theorem matchRun_cons_gS (gs : List (ℕ × ℕ)) (genes reads : List (ℕ × ℕ)) (q : List ℕ)
    (i : ℕ) (hi : i < 2 ^ 30) :
    matchRun genes reads (gS gs i :: q) =
      matchRun (alistPut genes i (gbeg gs i)) reads q := by
  simp only [matchRun]
  rw [if_pos (gS_and30 gs i hi), if_pos (gS_and31 gs i hi), gS_idx gs i hi, gS_pos gs i hi]

theorem matchRun_cons_gE (gs : List (ℕ × ℕ)) (genes genes' reads : List (ℕ × ℕ)) (q : List ℕ)
    (i v : ℕ) (hi : i < 2 ^ 30) (hpop : alistPop genes i = some (v, genes')) :
    matchRun genes reads (gE gs i :: q) =
      (matchRun genes' reads q).map (fun t =>
        ((reads.filter (fun rv => overlapOK (gend gs i) v rv.2)).map
          (fun rv => (rv.1, i))) ++ t) := by
  simp only [matchRun]
  rw [if_pos (gE_and30 gs i hi), if_neg (not_ne_iff.mpr (gE_and31 gs i hi)),
    gE_idx gs i hi, gE_pos gs i hi, hpop]

theorem matchRun_cons_rS (rs : List (ℕ × ℕ × ℕ)) (genes reads : List (ℕ × ℕ)) (q : List ℕ)
    (j : ℕ) (hj : j < 2 ^ 30) (hl1 : 1 ≤ rthr rs j) (hl : rthr rs j ≤ 131071) :
    matchRun genes reads (rS rs j :: q) =
      matchRun genes (alistPut reads j ((rbeg rs j) * 2 ^ 17 + (rthr rs j - 1))) q := by
  simp only [matchRun]
  rw [if_neg (not_ne_iff.mpr (rS_and30 rs j hj)),
    if_pos (by rw [rS_len rs j hj hl]; omega), rS_idx rs j hj, rS_store rs j hj hl hl1]

theorem matchRun_cons_rE (rs : List (ℕ × ℕ × ℕ)) (genes reads reads' : List (ℕ × ℕ))
    (q : List ℕ) (j rloc : ℕ) (hj : j < 2 ^ 30)
    (hpop : alistPop reads j = some (rloc, reads')) :
    matchRun genes reads (rE rs j :: q) =
      (matchRun genes reads' q).map (fun t =>
        ((genes.filter (fun gv => overlapOK (rend rs j) gv.2 rloc)).map
          (fun gv => (j, gv.1))) ++ t) := by
  simp only [matchRun]
  rw [if_neg (not_ne_iff.mpr (rE_and30 rs j hj)),
    if_neg (not_ne_iff.mpr (rE_len rs j hj)), rE_idx rs j hj, rE_pos rs j hj, hpop]

/-!  Specification-level bookkeeping for the sweep proof. -/

/-- Overlap condition checked when gene `i` ends while read `j` is open. -/
def arithG (gs : List (ℕ × ℕ)) (rs : List (ℕ × ℕ × ℕ)) (i j : ℕ) : Prop :=
  max (gbeg gs i) (rbeg rs j) + (rthr rs j - 1) ≤ gend gs i

/-- Overlap condition checked when read `j` ends while gene `i` is open. -/
def arithR (gs : List (ℕ × ℕ)) (rs : List (ℕ × ℕ × ℕ)) (i j : ℕ) : Prop :=
  max (gbeg gs i) (rbeg rs j) + (rthr rs j - 1) ≤ rend rs j

/-- Pair `(j, i)` will be emitted at the end event of gene `i` during the
remaining run over `q`. -/
def YieldsG (gs : List (ℕ × ℕ)) (rs : List (ℕ × ℕ × ℕ)) (q : List ℕ) (j i : ℕ) : Prop :=
  gE gs i ∈ q ∧ rE rs j ∈ q ∧ gE gs i < rE rs j ∧
    (rS rs j ∈ q → rS rs j < gE gs i) ∧ arithG gs rs i j

/-- Pair `(j, i)` will be emitted at the end event of read `j` during the
remaining run over `q`. -/
def YieldsR (gs : List (ℕ × ℕ)) (rs : List (ℕ × ℕ × ℕ)) (q : List ℕ) (j i : ℕ) : Prop :=
  gE gs i ∈ q ∧ rE rs j ∈ q ∧ rE rs j < gE gs i ∧
    (gS gs i ∈ q → gS gs i < rE rs j) ∧ arithR gs rs i j

/-- Pair `(j, i)` will be emitted during the remaining run over `q`
(assuming the cache invariants hold for the state entering `q`). -/
def Yields (gs : List (ℕ × ℕ)) (rs : List (ℕ × ℕ × ℕ)) (q : List ℕ) (j i : ℕ) : Prop :=
  j < rs.length ∧ i < gs.length ∧ (YieldsG gs rs q j i ∨ YieldsR gs rs q j i)

/-- Gene cache invariant: gene `i` is cached with its start position iff its
start event has been consumed and its end event is still pending. -/
def GInv (gs : List (ℕ × ℕ)) (q : List ℕ) (genes : List (ℕ × ℕ)) : Prop :=
  ∀ i v, alistGet genes i = some v ↔
    (i < gs.length ∧ v = gbeg gs i ∧ gE gs i ∈ q ∧ gS gs i ∉ q)

/-- Read cache invariant: read `j` is cached with `(begin << 17) | (L - 1)`
iff its start event has been consumed and its end event is still pending. -/
def RInv (rs : List (ℕ × ℕ × ℕ)) (q : List ℕ) (reads : List (ℕ × ℕ)) : Prop :=
  ∀ j v, alistGet reads j = some v ↔
    (j < rs.length ∧ v = (rbeg rs j) * 2 ^ 17 + (rthr rs j - 1) ∧ rE rs j ∈ q ∧ rS rs j ∉ q)

theorem yields_cons_gS (gs : List (ℕ × ℕ)) (rs : List (ℕ × ℕ × ℕ))
    (hgl : gs.length ≤ 2 ^ 30) (hrl : rs.length ≤ 2 ^ 30) (q : List ℕ) (i₀ : ℕ)
    (hi₀ : i₀ < 2 ^ 30) (hpw : (gS gs i₀ :: q).Pairwise (· < ·)) (j i : ℕ) :
    Yields gs rs (gS gs i₀ :: q) j i ↔ Yields gs rs q j i := by
  have hmin : ∀ x ∈ q, gS gs i₀ < x := (List.pairwise_cons.mp hpw).1
  constructor
  · rintro ⟨hj, hi, hGR⟩
    have hj30 : j < 2 ^ 30 := lt_of_lt_of_le hj hrl
    have hi30 : i < 2 ^ 30 := lt_of_lt_of_le hi hgl
    refine ⟨hj, hi, ?_⟩
    rcases hGR with ⟨h1, h2, h3, h4, h5⟩ | ⟨h1, h2, h3, h4, h5⟩
    · left
      have e1 : gE gs i ∈ q := by
        rcases List.mem_cons.mp h1 with h | h
        · exact absurd h.symm (gS_ne_gE gs gs i₀ i hi₀ hi30)
        · exact h
      have e2 : rE rs j ∈ q := by
        rcases List.mem_cons.mp h2 with h | h
        · exact absurd h.symm (gS_ne_rE gs rs i₀ j hi₀ hj30)
        · exact h
      exact ⟨e1, e2, h3, fun hin => h4 (List.mem_cons_of_mem _ hin), h5⟩
    · right
      have e1 : gE gs i ∈ q := by
        rcases List.mem_cons.mp h1 with h | h
        · exact absurd h.symm (gS_ne_gE gs gs i₀ i hi₀ hi30)
        · exact h
      have e2 : rE rs j ∈ q := by
        rcases List.mem_cons.mp h2 with h | h
        · exact absurd h.symm (gS_ne_rE gs rs i₀ j hi₀ hj30)
        · exact h
      exact ⟨e1, e2, h3, fun hin => h4 (List.mem_cons_of_mem _ hin), h5⟩
  · rintro ⟨hj, hi, hGR⟩
    have hj30 : j < 2 ^ 30 := lt_of_lt_of_le hj hrl
    have hi30 : i < 2 ^ 30 := lt_of_lt_of_le hi hgl
    refine ⟨hj, hi, ?_⟩
    rcases hGR with ⟨h1, h2, h3, h4, h5⟩ | ⟨h1, h2, h3, h4, h5⟩
    · left
      refine ⟨List.mem_cons_of_mem _ h1, List.mem_cons_of_mem _ h2, h3, ?_, h5⟩
      intro hin
      rcases List.mem_cons.mp hin with h | h
      · exact absurd h.symm (gS_ne_rS gs rs i₀ j hi₀ hj30)
      · exact h4 h
    · right
      refine ⟨List.mem_cons_of_mem _ h1, List.mem_cons_of_mem _ h2, h3, ?_, h5⟩
      intro hin
      rcases List.mem_cons.mp hin with h | h
      · by_cases hii : i = i₀
        · subst hii
          exact hmin _ h2
        · exact absurd h (gS_ne_gS gs i i₀ hi30 hi₀ hii)
      · exact h4 h

theorem yields_cons_rS (gs : List (ℕ × ℕ)) (rs : List (ℕ × ℕ × ℕ))
    (hgl : gs.length ≤ 2 ^ 30) (hrl : rs.length ≤ 2 ^ 30) (q : List ℕ) (j₀ : ℕ)
    (hj₀ : j₀ < 2 ^ 30) (hl1 : 1 ≤ rthr rs j₀) (hl : rthr rs j₀ ≤ 131071)
    (hpw : (rS rs j₀ :: q).Pairwise (· < ·)) (j i : ℕ) :
    Yields gs rs (rS rs j₀ :: q) j i ↔ Yields gs rs q j i := by
  have hmin : ∀ x ∈ q, rS rs j₀ < x := (List.pairwise_cons.mp hpw).1
  constructor
  · rintro ⟨hj, hi, hGR⟩
    have hj30 : j < 2 ^ 30 := lt_of_lt_of_le hj hrl
    have hi30 : i < 2 ^ 30 := lt_of_lt_of_le hi hgl
    refine ⟨hj, hi, ?_⟩
    rcases hGR with ⟨h1, h2, h3, h4, h5⟩ | ⟨h1, h2, h3, h4, h5⟩
    · left
      have e1 : gE gs i ∈ q := by
        rcases List.mem_cons.mp h1 with h | h
        · exact absurd h (gE_ne_rS gs rs i j₀ hi30 hj₀)
        · exact h
      have e2 : rE rs j ∈ q := by
        rcases List.mem_cons.mp h2 with h | h
        · by_cases hjj : j = j₀
          · subst hjj
            exact absurd h.symm (rS_ne_rE_self rs j j hj30 hj30 hl1 hl)
          · exact absurd h.symm (rS_ne_rE rs rs j₀ j hj₀ hj30 (fun hh => hjj hh.symm))
        · exact h
      exact ⟨e1, e2, h3, fun hin => h4 (List.mem_cons_of_mem _ hin), h5⟩
    · right
      have e1 : gE gs i ∈ q := by
        rcases List.mem_cons.mp h1 with h | h
        · exact absurd h (gE_ne_rS gs rs i j₀ hi30 hj₀)
        · exact h
      have e2 : rE rs j ∈ q := by
        rcases List.mem_cons.mp h2 with h | h
        · by_cases hjj : j = j₀
          · subst hjj
            exact absurd h.symm (rS_ne_rE_self rs j j hj30 hj30 hl1 hl)
          · exact absurd h.symm (rS_ne_rE rs rs j₀ j hj₀ hj30 (fun hh => hjj hh.symm))
        · exact h
      exact ⟨e1, e2, h3, fun hin => h4 (List.mem_cons_of_mem _ hin), h5⟩
  · rintro ⟨hj, hi, hGR⟩
    have hj30 : j < 2 ^ 30 := lt_of_lt_of_le hj hrl
    have hi30 : i < 2 ^ 30 := lt_of_lt_of_le hi hgl
    refine ⟨hj, hi, ?_⟩
    rcases hGR with ⟨h1, h2, h3, h4, h5⟩ | ⟨h1, h2, h3, h4, h5⟩
    · left
      refine ⟨List.mem_cons_of_mem _ h1, List.mem_cons_of_mem _ h2, h3, ?_, h5⟩
      intro hin
      rcases List.mem_cons.mp hin with h | h
      · by_cases hjj : j = j₀
        · subst hjj
          exact hmin _ h1
        · exact absurd h (rS_ne_rS rs j j₀ hj30 hj₀ hjj)
      · exact h4 h
    · right
      refine ⟨List.mem_cons_of_mem _ h1, List.mem_cons_of_mem _ h2, h3, ?_, h5⟩
      intro hin
      rcases List.mem_cons.mp hin with h | h
      · exact absurd h (gS_ne_rS gs rs i j₀ hi30 hj₀)
      · exact h4 h

theorem yields_cons_gE (gs : List (ℕ × ℕ)) (rs : List (ℕ × ℕ × ℕ))
    (hgl : gs.length ≤ 2 ^ 30) (hrl : rs.length ≤ 2 ^ 30) (q : List ℕ) (i₀ : ℕ)
    (hi₀len : i₀ < gs.length) (hpw : (gE gs i₀ :: q).Pairwise (· < ·)) (j i : ℕ) :
    Yields gs rs (gE gs i₀ :: q) j i ↔
      ((i = i₀ ∧ j < rs.length ∧ rE rs j ∈ (gE gs i₀ :: q) ∧
        rS rs j ∉ (gE gs i₀ :: q) ∧ arithG gs rs i₀ j) ∨ Yields gs rs q j i) := by
  have hi₀ : i₀ < 2 ^ 30 := lt_of_lt_of_le hi₀len hgl
  have hmin : ∀ x ∈ q, gE gs i₀ < x := (List.pairwise_cons.mp hpw).1
  constructor
  · rintro ⟨hj, hi, hGR⟩
    have hj30 : j < 2 ^ 30 := lt_of_lt_of_le hj hrl
    have hi30 : i < 2 ^ 30 := lt_of_lt_of_le hi hgl
    rcases hGR with ⟨h1, h2, h3, h4, h5⟩ | ⟨h1, h2, h3, h4, h5⟩
    · by_cases hii : i = i₀
      · subst hii
        left
        refine ⟨rfl, hj, h2, ?_, h5⟩
        intro hin
        rcases List.mem_cons.mp hin with h | h
        · exact absurd h.symm (gE_ne_rS gs rs i j hi30 hj30)
        · exact absurd (h4 hin) (not_lt.mpr (le_of_lt (hmin _ h)))
      · right
        refine ⟨hj, hi, Or.inl ⟨?_, ?_, h3, ?_, h5⟩⟩
        · rcases List.mem_cons.mp h1 with h | h
          · exact absurd h (gE_ne_gE gs i i₀ hi30 hi₀ hii)
          · exact h
        · rcases List.mem_cons.mp h2 with h | h
          · exact absurd h.symm (gE_ne_rE gs rs i₀ j hi₀ hj30)
          · exact h
        · intro hin
          exact h4 (List.mem_cons_of_mem _ hin)
    · by_cases hii : i = i₀
      · subst hii
        exfalso
        rcases List.mem_cons.mp h2 with h | h
        · exact (gE_ne_rE gs rs i j hi30 hj30) h.symm
        · exact absurd h3 (not_lt.mpr (le_of_lt (hmin _ h)))
      · right
        refine ⟨hj, hi, Or.inr ⟨?_, ?_, h3, ?_, h5⟩⟩
        · rcases List.mem_cons.mp h1 with h | h
          · exact absurd h (gE_ne_gE gs i i₀ hi30 hi₀ hii)
          · exact h
        · rcases List.mem_cons.mp h2 with h | h
          · exact absurd h.symm (gE_ne_rE gs rs i₀ j hi₀ hj30)
          · exact h
        · intro hin
          exact h4 (List.mem_cons_of_mem _ hin)
  · rintro (⟨hii, hj, h2, h4, h5⟩ | ⟨hj, hi, hGR⟩)
    · subst hii
      have hj30 : j < 2 ^ 30 := lt_of_lt_of_le hj hrl
      refine ⟨hj, hi₀len, Or.inl ⟨List.mem_cons_self _ _, h2, ?_, ?_, h5⟩⟩
      · rcases List.mem_cons.mp h2 with h | h
        · exact absurd h.symm (gE_ne_rE gs rs i j (lt_of_lt_of_le hi₀len hgl) hj30)
        · exact hmin _ h
      · intro hin
        exact absurd hin h4
    · have hj30 : j < 2 ^ 30 := lt_of_lt_of_le hj hrl
      have hi30 : i < 2 ^ 30 := lt_of_lt_of_le hi hgl
      refine ⟨hj, hi, ?_⟩
      rcases hGR with ⟨h1, h2, h3, h4, h5⟩ | ⟨h1, h2, h3, h4, h5⟩
      · left
        refine ⟨List.mem_cons_of_mem _ h1, List.mem_cons_of_mem _ h2, h3, ?_, h5⟩
        intro hin
        rcases List.mem_cons.mp hin with h | h
        · exact absurd h.symm (gE_ne_rS gs rs i₀ j hi₀ hj30)
        · exact h4 h
      · right
        refine ⟨List.mem_cons_of_mem _ h1, List.mem_cons_of_mem _ h2, h3, ?_, h5⟩
        intro hin
        rcases List.mem_cons.mp hin with h | h
        · exact absurd h (gS_ne_gE gs gs i i₀ hi30 hi₀)
        · exact h4 h

theorem yields_cons_rE (gs : List (ℕ × ℕ)) (rs : List (ℕ × ℕ × ℕ))
    (hgl : gs.length ≤ 2 ^ 30) (hrl : rs.length ≤ 2 ^ 30) (q : List ℕ) (j₀ : ℕ)
    (hj₀len : j₀ < rs.length) (hl1 : 1 ≤ rthr rs j₀) (hl : rthr rs j₀ ≤ 131071)
    (hpw : (rE rs j₀ :: q).Pairwise (· < ·)) (j i : ℕ) :
    Yields gs rs (rE rs j₀ :: q) j i ↔
      ((j = j₀ ∧ i < gs.length ∧ gE gs i ∈ (rE rs j₀ :: q) ∧
        gS gs i ∉ (rE rs j₀ :: q) ∧ arithR gs rs i j₀) ∨ Yields gs rs q j i) := by
  have hj₀ : j₀ < 2 ^ 30 := lt_of_lt_of_le hj₀len hrl
  have hmin : ∀ x ∈ q, rE rs j₀ < x := (List.pairwise_cons.mp hpw).1
  constructor
  · rintro ⟨hj, hi, hGR⟩
    have hj30 : j < 2 ^ 30 := lt_of_lt_of_le hj hrl
    have hi30 : i < 2 ^ 30 := lt_of_lt_of_le hi hgl
    rcases hGR with ⟨h1, h2, h3, h4, h5⟩ | ⟨h1, h2, h3, h4, h5⟩
    · by_cases hjj : j = j₀
      · subst hjj
        exfalso
        rcases List.mem_cons.mp h1 with h | h
        · exact (gE_ne_rE gs rs i j hi30 hj30) h
        · exact absurd h3 (not_lt.mpr (le_of_lt (hmin _ h)))
      · right
        refine ⟨hj, hi, Or.inl ⟨?_, ?_, h3, ?_, h5⟩⟩
        · rcases List.mem_cons.mp h1 with h | h
          · exact absurd h (gE_ne_rE gs rs i j₀ hi30 hj₀)
          · exact h
        · rcases List.mem_cons.mp h2 with h | h
          · exact absurd h (rE_ne_rE rs j j₀ hj30 hj₀ hjj)
          · exact h
        · intro hin
          exact h4 (List.mem_cons_of_mem _ hin)
    · by_cases hjj : j = j₀
      · subst hjj
        left
        refine ⟨rfl, hi, h1, ?_, h5⟩
        intro hin
        rcases List.mem_cons.mp hin with h | h
        · exact absurd h (gS_ne_rE gs rs i j hi30 hj30)
        · exact absurd (h4 hin) (not_lt.mpr (le_of_lt (hmin _ h)))
      · right
        refine ⟨hj, hi, Or.inr ⟨?_, ?_, h3, ?_, h5⟩⟩
        · rcases List.mem_cons.mp h1 with h | h
          · exact absurd h (gE_ne_rE gs rs i j₀ hi30 hj₀)
          · exact h
        · rcases List.mem_cons.mp h2 with h | h
          · exact absurd h (rE_ne_rE rs j j₀ hj30 hj₀ hjj)
          · exact h
        · intro hin
          exact h4 (List.mem_cons_of_mem _ hin)
  · rintro (⟨hjj, hi, h1, h4, h5⟩ | ⟨hj, hi, hGR⟩)
    · subst hjj
      have hi30 : i < 2 ^ 30 := lt_of_lt_of_le hi hgl
      refine ⟨hj₀len, hi, Or.inr ⟨h1, List.mem_cons_self _ _, ?_, ?_, h5⟩⟩
      · rcases List.mem_cons.mp h1 with h | h
        · exact absurd h (gE_ne_rE gs rs i j hi30 hj₀)
        · exact hmin _ h
      · intro hin
        exact absurd hin h4
    · have hj30 : j < 2 ^ 30 := lt_of_lt_of_le hj hrl
      have hi30 : i < 2 ^ 30 := lt_of_lt_of_le hi hgl
      refine ⟨hj, hi, ?_⟩
      rcases hGR with ⟨h1, h2, h3, h4, h5⟩ | ⟨h1, h2, h3, h4, h5⟩
      · left
        refine ⟨List.mem_cons_of_mem _ h1, List.mem_cons_of_mem _ h2, h3, ?_, h5⟩
        intro hin
        rcases List.mem_cons.mp hin with h | h
        · by_cases hjj : j = j₀
          · subst hjj
            exact absurd h (rS_ne_rE_self rs j j hj30 hj30 hl1 hl)
          · exact absurd h (rS_ne_rE rs rs j j₀ hj30 hj₀ hjj)
        · exact h4 h
      · right
        refine ⟨List.mem_cons_of_mem _ h1, List.mem_cons_of_mem _ h2, h3, ?_, h5⟩
        intro hin
        rcases List.mem_cons.mp hin with h | h
        · exact absurd h (gS_ne_rE gs rs i j₀ hi30 hj₀)
        · exact h4 h

/-- Event shapes allowed in a chunk queue. -/
def EvOf (gs : List (ℕ × ℕ)) (rs : List (ℕ × ℕ × ℕ)) (c : ℕ) : Prop :=
  (∃ i, i < gs.length ∧ (c = gS gs i ∨ c = gE gs i)) ∨
  (∃ j, j < rs.length ∧ (c = rS rs j ∨ c = rE rs j))

theorem matchRun_spec (gs : List (ℕ × ℕ)) (rs : List (ℕ × ℕ × ℕ))
    (hg : ∀ i, i < gs.length → gbeg gs i < gend gs i)
    (hr : ∀ j, j < rs.length → rbeg rs j < rend rs j ∧ 1 ≤ rthr rs j ∧ rthr rs j ≤ 131071)
    (hgl : gs.length ≤ 2 ^ 30) (hrl : rs.length ≤ 2 ^ 30) :
    ∀ (q : List ℕ) (genes reads : List (ℕ × ℕ)),
      q.Pairwise (· < ·) →
      (∀ c ∈ q, EvOf gs rs c) →
      (∀ i, i < gs.length → gS gs i ∈ q → gE gs i ∈ q) →
      (∀ j, j < rs.length → rS rs j ∈ q → rE rs j ∈ q) →
      GInv gs q genes → RInv rs q reads →
      (genes.map Prod.fst).Nodup → (reads.map Prod.fst).Nodup →
      ∃ out, matchRun genes reads q = .ok out ∧
        ∀ j i, ((j, i) ∈ out ↔ Yields gs rs q j i) := by
  intro q
  induction q with
  | nil =>
    intro genes reads _ _ _ _ _ _ _ _
    refine ⟨[], rfl, fun j i => ?_⟩
    simp [Yields, YieldsG, YieldsR]
  | cons c q ih =>
    intro genes reads hpw hshape hpairG hpairR hGI hRI hgnd hrnd
    have hmin : ∀ x ∈ q, c < x := (List.pairwise_cons.mp hpw).1
    have htail : q.Pairwise (· < ·) := (List.pairwise_cons.mp hpw).2
    have hnotin : c ∉ q := fun h => lt_irrefl c (hmin c h)
    have hmemt : ∀ e, e ≠ c → ((e ∈ c :: q) ↔ e ∈ q) := fun e he => by
      simp [List.mem_cons, he]
    have hshape' : ∀ x ∈ q, EvOf gs rs x := fun x hx => hshape x (List.mem_cons_of_mem _ hx)
    rcases hshape c (List.mem_cons_self c q) with ⟨i₀, hi₀len, hc | hc⟩ | ⟨j₀, hj₀len, hc | hc⟩
    · -- gene start event
      subst hc
      have hi₀ : i₀ < 2 ^ 30 := lt_of_lt_of_le hi₀len hgl
      have hpairG' : ∀ i, i < gs.length → gS gs i ∈ q → gE gs i ∈ q := by
        intro i hilen hin
        have hi30 : i < 2 ^ 30 := lt_of_lt_of_le hilen hgl
        have h1 := hpairG i hilen (List.mem_cons_of_mem _ hin)
        exact (hmemt _ (gS_ne_gE gs gs i₀ i hi₀ hi30).symm).mp h1
      have hpairR' : ∀ j, j < rs.length → rS rs j ∈ q → rE rs j ∈ q := by
        intro j hjlen hin
        have hj30 : j < 2 ^ 30 := lt_of_lt_of_le hjlen hrl
        have h1 := hpairR j hjlen (List.mem_cons_of_mem _ hin)
        exact (hmemt _ (gS_ne_rE gs rs i₀ j hi₀ hj30).symm).mp h1
      have hGI' : GInv gs q (alistPut genes i₀ (gbeg gs i₀)) := by
        intro i v
        rw [alistGet_put]
        by_cases hii : i = i₀
        · subst hii
          simp only [if_pos rfl]
          constructor
          · intro h
            have hv : v = gbeg gs i := by
              injection h with h'
              exact h'.symm
            have hend : gE gs i ∈ q := by
              have h1 := hpairG i hi₀len (List.mem_cons_self _ _)
              exact (hmemt _ (gS_ne_gE gs gs i i hi₀ hi₀).symm).mp h1
            exact ⟨hi₀len, hv, hend, hnotin⟩
          · rintro ⟨_, hv, _, _⟩
            simp [hv]
        · simp only [if_neg hii]
          by_cases hilen : i < gs.length
          · have hi30 : i < 2 ^ 30 := lt_of_lt_of_le hilen hgl
            rw [hGI i v, hmemt _ (gS_ne_gE gs gs i₀ i hi₀ hi30).symm]
            have t2 : (gS gs i ∈ gS gs i₀ :: q) ↔ gS gs i ∈ q :=
              hmemt _ (gS_ne_gS gs i i₀ hi30 hi₀ hii)
            rw [t2]
          · constructor
            · intro h
              exact absurd ((hGI i v).mp h).1 hilen
            · rintro ⟨h, _⟩
              exact absurd h hilen
      have hRI' : RInv rs q reads := by
        intro j v
        by_cases hjlen : j < rs.length
        · have hj30 : j < 2 ^ 30 := lt_of_lt_of_le hjlen hrl
          rw [hRI j v, hmemt _ (gS_ne_rE gs rs i₀ j hi₀ hj30).symm,
            hmemt _ (gS_ne_rS gs rs i₀ j hi₀ hj30).symm]
        · constructor
          · intro h
            exact absurd ((hRI j v).mp h).1 hjlen
          · rintro ⟨h, _⟩
            exact absurd h hjlen
      obtain ⟨out, hrun, hiff⟩ := ih (alistPut genes i₀ (gbeg gs i₀)) reads htail hshape'
        hpairG' hpairR' hGI' hRI' (alistPut_keys_nodup genes i₀ _ hgnd) hrnd
      refine ⟨out, ?_, fun j i => ?_⟩
      · rw [matchRun_cons_gS gs genes reads q i₀ hi₀]
        exact hrun
      · rw [hiff j i, yields_cons_gS gs rs hgl hrl q i₀ hi₀ hpw j i]
    · -- gene end event
      subst hc
      have hi₀ : i₀ < 2 ^ 30 := lt_of_lt_of_le hi₀len hgl
      have hgSnotin : gS gs i₀ ∉ (gE gs i₀ :: q) := by
        intro hin
        rcases List.mem_cons.mp hin with h | h
        · exact (gS_ne_gE gs gs i₀ i₀ hi₀ hi₀) h
        · exact absurd (gS_lt_gE gs i₀ hi₀ (hg i₀ hi₀len)) (not_lt.mpr (le_of_lt (hmin _ h)))
      have hget : alistGet genes i₀ = some (gbeg gs i₀) :=
        (hGI i₀ _).mpr ⟨hi₀len, rfl, List.mem_cons_self _ _, hgSnotin⟩
      obtain ⟨genes', hpop, hnd', hget'⟩ := alistPop_spec genes i₀ _ hgnd hget
      have hpairG' : ∀ i, i < gs.length → gS gs i ∈ q → gE gs i ∈ q := by
        intro i hilen hin
        have hi30 : i < 2 ^ 30 := lt_of_lt_of_le hilen hgl
        have hii : i ≠ i₀ := by
          intro hh
          exact hgSnotin (hh ▸ List.mem_cons_of_mem _ hin)
        have h1 := hpairG i hilen (List.mem_cons_of_mem _ hin)
        exact (hmemt _ (gE_ne_gE gs i i₀ hi30 hi₀ hii)).mp h1
      have hpairR' : ∀ j, j < rs.length → rS rs j ∈ q → rE rs j ∈ q := by
        intro j hjlen hin
        have hj30 : j < 2 ^ 30 := lt_of_lt_of_le hjlen hrl
        have h1 := hpairR j hjlen (List.mem_cons_of_mem _ hin)
        exact (hmemt _ (gE_ne_rE gs rs i₀ j hi₀ hj30).symm).mp h1
      have hGI' : GInv gs q genes' := by
        intro i v
        rw [hget' i]
        by_cases hii : i = i₀
        · subst hii
          simp only [if_pos rfl]
          constructor
          · intro h
            exact absurd h (by simp)
          · rintro ⟨_, _, hmem', _⟩
            exact absurd hmem' hnotin
        · simp only [if_neg hii]
          by_cases hilen : i < gs.length
          · have hi30 : i < 2 ^ 30 := lt_of_lt_of_le hilen hgl
            rw [hGI i v, hmemt _ (gE_ne_gE gs i i₀ hi30 hi₀ hii),
              hmemt _ (gS_ne_gE gs gs i i₀ hi30 hi₀)]
          · constructor
            · intro h
              exact absurd ((hGI i v).mp h).1 hilen
            · rintro ⟨h, _⟩
              exact absurd h hilen
      have hRI' : RInv rs q reads := by
        intro j v
        by_cases hjlen : j < rs.length
        · have hj30 : j < 2 ^ 30 := lt_of_lt_of_le hjlen hrl
          rw [hRI j v, hmemt _ (gE_ne_rE gs rs i₀ j hi₀ hj30).symm,
            hmemt _ (gE_ne_rS gs rs i₀ j hi₀ hj30).symm]
        · constructor
          · intro h
            exact absurd ((hRI j v).mp h).1 hjlen
          · rintro ⟨h, _⟩
            exact absurd h hjlen
      obtain ⟨out, hrun, hiff⟩ := ih genes' reads htail hshape' hpairG' hpairR' hGI' hRI'
        hnd' hrnd
      have hys : ∀ j i, ((j, i) ∈ (reads.filter
          (fun rv => overlapOK (gend gs i₀) (gbeg gs i₀) rv.2)).map (fun rv => (rv.1, i₀)) ↔
          (i = i₀ ∧ j < rs.length ∧ rE rs j ∈ (gE gs i₀ :: q) ∧
            rS rs j ∉ (gE gs i₀ :: q) ∧ arithG gs rs i₀ j)) := by
        intro j i
        simp only [List.mem_map, List.mem_filter]
        constructor
        · rintro ⟨⟨j', rloc⟩, ⟨hmem', hovl⟩, heq⟩
          obtain ⟨h1, h2⟩ := Prod.mk.injEq .. ▸ heq
          subst h1
          subst h2
          have hR := (hRI j' rloc).mp ((alistGet_mem reads hrnd j' rloc).mp hmem')
          have hth := hr j' hR.1
          refine ⟨rfl, hR.1, hR.2.2.1, hR.2.2.2, ?_⟩
          have hc17 : rthr rs j' - 1 < 2 ^ 17 := by omega
          have := (overlapOK_iff (gend gs i₀) (gbeg gs i₀) (rbeg rs j')
            (rthr rs j' - 1) hc17).mp (by rw [← hR.2.1]; exact hovl)
          exact this
        · rintro ⟨rfl, hjlen, hre, hrs, har⟩
          have hth := hr j hjlen
          have hget2 : alistGet reads j = some ((rbeg rs j) * 2 ^ 17 + (rthr rs j - 1)) :=
            (hRI j _).mpr ⟨hjlen, rfl, hre, hrs⟩
          refine ⟨(j, (rbeg rs j) * 2 ^ 17 + (rthr rs j - 1)),
            ⟨(alistGet_mem reads hrnd j _).mpr hget2, ?_⟩, rfl⟩
          have hc17 : rthr rs j - 1 < 2 ^ 17 := by omega
          exact (overlapOK_iff (gend gs i) (gbeg gs i) (rbeg rs j)
            (rthr rs j - 1) hc17).mpr har
      refine ⟨(reads.filter (fun rv => overlapOK (gend gs i₀) (gbeg gs i₀) rv.2)).map
        (fun rv => (rv.1, i₀)) ++ out, ?_, fun j i => ?_⟩
      · rw [matchRun_cons_gE gs genes genes' reads q i₀ (gbeg gs i₀) hi₀ hpop, hrun]
        rfl
      · rw [List.mem_append, hys j i, hiff j i,
          yields_cons_gE gs rs hgl hrl q i₀ hi₀len hpw j i]
    · -- read start event
      subst hc
      have hj₀ : j₀ < 2 ^ 30 := lt_of_lt_of_le hj₀len hrl
      have hth₀ := hr j₀ hj₀len
      have hpairG' : ∀ i, i < gs.length → gS gs i ∈ q → gE gs i ∈ q := by
        intro i hilen hin
        have hi30 : i < 2 ^ 30 := lt_of_lt_of_le hilen hgl
        have h1 := hpairG i hilen (List.mem_cons_of_mem _ hin)
        exact (hmemt _ (gE_ne_rS gs rs i j₀ hi30 hj₀)).mp h1
      have hpairR' : ∀ j, j < rs.length → rS rs j ∈ q → rE rs j ∈ q := by
        intro j hjlen hin
        have hj30 : j < 2 ^ 30 := lt_of_lt_of_le hjlen hrl
        have h1 := hpairR j hjlen (List.mem_cons_of_mem _ hin)
        by_cases hjj : j = j₀
        · subst hjj
          exact (hmemt _ (rS_ne_rE_self rs j j hj30 hj30 hth₀.2.1 hth₀.2.2).symm).mp h1
        · exact (hmemt _ (rS_ne_rE rs rs j₀ j hj₀ hj30 (fun hh => hjj hh.symm)).symm).mp h1
      have hGI' : GInv gs q genes := by
        intro i v
        by_cases hilen : i < gs.length
        · have hi30 : i < 2 ^ 30 := lt_of_lt_of_le hilen hgl
          rw [hGI i v, hmemt _ (gE_ne_rS gs rs i j₀ hi30 hj₀),
            hmemt _ (gS_ne_rS gs rs i j₀ hi30 hj₀)]
        · constructor
          · intro h
            exact absurd ((hGI i v).mp h).1 hilen
          · rintro ⟨h, _⟩
            exact absurd h hilen
      have hRI' : RInv rs q (alistPut reads j₀ ((rbeg rs j₀) * 2 ^ 17 + (rthr rs j₀ - 1))) := by
        intro j v
        rw [alistGet_put]
        by_cases hjj : j = j₀
        · subst hjj
          simp only [if_pos rfl]
          constructor
          · intro h
            have hv : v = (rbeg rs j) * 2 ^ 17 + (rthr rs j - 1) := by
              injection h with h'
              exact h'.symm
            have hend : rE rs j ∈ q := by
              have h1 := hpairR j hj₀len (List.mem_cons_self _ _)
              exact (hmemt _ (rS_ne_rE_self rs j j hj₀ hj₀ hth₀.2.1 hth₀.2.2).symm).mp h1
            exact ⟨hj₀len, hv, hend, hnotin⟩
          · rintro ⟨_, hv, _, _⟩
            simp [hv]
        · simp only [if_neg hjj]
          by_cases hjlen : j < rs.length
          · have hj30 : j < 2 ^ 30 := lt_of_lt_of_le hjlen hrl
            rw [hRI j v, hmemt _ (rS_ne_rE rs rs j₀ j hj₀ hj30 (fun hh => hjj hh.symm)).symm,
              hmemt _ (rS_ne_rS rs j j₀ hj30 hj₀ hjj)]
          · constructor
            · intro h
              exact absurd ((hRI j v).mp h).1 hjlen
            · rintro ⟨h, _⟩
              exact absurd h hjlen
      obtain ⟨out, hrun, hiff⟩ := ih genes
        (alistPut reads j₀ ((rbeg rs j₀) * 2 ^ 17 + (rthr rs j₀ - 1))) htail hshape'
        hpairG' hpairR' hGI' hRI' hgnd (alistPut_keys_nodup reads j₀ _ hrnd)
      refine ⟨out, ?_, fun j i => ?_⟩
      · rw [matchRun_cons_rS rs genes reads q j₀ hj₀ hth₀.2.1 hth₀.2.2]
        exact hrun
      · rw [hiff j i, yields_cons_rS gs rs hgl hrl q j₀ hj₀ hth₀.2.1 hth₀.2.2 hpw j i]
    · -- read end event
      subst hc
      have hj₀ : j₀ < 2 ^ 30 := lt_of_lt_of_le hj₀len hrl
      have hth₀ := hr j₀ hj₀len
      have hrSnotin : rS rs j₀ ∉ (rE rs j₀ :: q) := by
        intro hin
        rcases List.mem_cons.mp hin with h | h
        · exact (rS_ne_rE_self rs j₀ j₀ hj₀ hj₀ hth₀.2.1 hth₀.2.2) h
        · exact absurd (rS_lt_rE rs j₀ hj₀ hth₀.1 hth₀.2.2)
            (not_lt.mpr (le_of_lt (hmin _ h)))
      have hget : alistGet reads j₀ = some ((rbeg rs j₀) * 2 ^ 17 + (rthr rs j₀ - 1)) :=
        (hRI j₀ _).mpr ⟨hj₀len, rfl, List.mem_cons_self _ _, hrSnotin⟩
      obtain ⟨reads', hpop, hnd', hget'⟩ := alistPop_spec reads j₀ _ hrnd hget
      have hpairG' : ∀ i, i < gs.length → gS gs i ∈ q → gE gs i ∈ q := by
        intro i hilen hin
        have hi30 : i < 2 ^ 30 := lt_of_lt_of_le hilen hgl
        have h1 := hpairG i hilen (List.mem_cons_of_mem _ hin)
        exact (hmemt _ (gE_ne_rE gs rs i j₀ hi30 hj₀)).mp h1
      have hpairR' : ∀ j, j < rs.length → rS rs j ∈ q → rE rs j ∈ q := by
        intro j hjlen hin
        have hj30 : j < 2 ^ 30 := lt_of_lt_of_le hjlen hrl
        have hjj : j ≠ j₀ := by
          intro hh
          exact hrSnotin (hh ▸ List.mem_cons_of_mem _ hin)
        have h1 := hpairR j hjlen (List.mem_cons_of_mem _ hin)
        exact (hmemt _ (rE_ne_rE rs j j₀ hj30 hj₀ hjj)).mp h1
      have hGI' : GInv gs q genes := by
        intro i v
        by_cases hilen : i < gs.length
        · have hi30 : i < 2 ^ 30 := lt_of_lt_of_le hilen hgl
          rw [hGI i v, hmemt _ (gE_ne_rE gs rs i j₀ hi30 hj₀),
            hmemt _ (gS_ne_rE gs rs i j₀ hi30 hj₀)]
        · constructor
          · intro h
            exact absurd ((hGI i v).mp h).1 hilen
          · rintro ⟨h, _⟩
            exact absurd h hilen
      have hRI' : RInv rs q reads' := by
        intro j v
        rw [hget' j]
        by_cases hjj : j = j₀
        · subst hjj
          simp only [if_pos rfl]
          constructor
          · intro h
            exact absurd h (by simp)
          · rintro ⟨_, _, hmem', _⟩
            exact absurd hmem' hnotin
        · simp only [if_neg hjj]
          by_cases hjlen : j < rs.length
          · have hj30 : j < 2 ^ 30 := lt_of_lt_of_le hjlen hrl
            rw [hRI j v, hmemt _ (rE_ne_rE rs j j₀ hj30 hj₀ hjj), hmemt _ ?hne]
            case hne =>
              by_cases hjj' : j = j₀
              · exact absurd hjj' hjj
              · exact rS_ne_rE rs rs j j₀ hj30 hj₀ hjj
          · constructor
            · intro h
              exact absurd ((hRI j v).mp h).1 hjlen
            · rintro ⟨h, _⟩
              exact absurd h hjlen
      obtain ⟨out, hrun, hiff⟩ := ih genes reads' htail hshape' hpairG' hpairR' hGI' hRI'
        hgnd hnd'
      have hys : ∀ j i, ((j, i) ∈ (genes.filter
          (fun gv => overlapOK (rend rs j₀) gv.2
            ((rbeg rs j₀) * 2 ^ 17 + (rthr rs j₀ - 1)))).map (fun gv => (j₀, gv.1)) ↔
          (j = j₀ ∧ i < gs.length ∧ gE gs i ∈ (rE rs j₀ :: q) ∧
            gS gs i ∉ (rE rs j₀ :: q) ∧ arithR gs rs i j₀)) := by
        intro j i
        simp only [List.mem_map, List.mem_filter]
        constructor
        · rintro ⟨⟨i', gloc⟩, ⟨hmem', hovl⟩, heq⟩
          obtain ⟨h1, h2⟩ := Prod.mk.injEq .. ▸ heq
          subst h1
          subst h2
          have hG := (hGI i' gloc).mp ((alistGet_mem genes hgnd i' gloc).mp hmem')
          refine ⟨rfl, hG.1, hG.2.2.1, hG.2.2.2, ?_⟩
          have hc17 : rthr rs j₀ - 1 < 2 ^ 17 := by
            have := hth₀.2.2
            omega
          have := (overlapOK_iff (rend rs j₀) (gbeg gs i') (rbeg rs j₀)
            (rthr rs j₀ - 1) hc17).mp (by rw [← hG.2.1]; exact hovl)
          exact this
        · rintro ⟨rfl, hilen, hge, hgs, har⟩
          have hget2 : alistGet genes i = some (gbeg gs i) :=
            (hGI i _).mpr ⟨hilen, rfl, hge, hgs⟩
          refine ⟨(i, gbeg gs i), ⟨(alistGet_mem genes hgnd i _).mpr hget2, ?_⟩, rfl⟩
          have hc17 : rthr rs j - 1 < 2 ^ 17 := by
            have := hth₀.2.2
            omega
          exact (overlapOK_iff (rend rs j) (gbeg gs i) (rbeg rs j)
            (rthr rs j - 1) hc17).mpr har
      refine ⟨(genes.filter (fun gv => overlapOK (rend rs j₀) gv.2
        ((rbeg rs j₀) * 2 ^ 17 + (rthr rs j₀ - 1)))).map (fun gv => (j₀, gv.1)) ++ out,
        ?_, fun j i => ?_⟩
      · rw [matchRun_cons_rE rs genes reads reads' q j₀
          ((rbeg rs j₀) * 2 ^ 17 + (rthr rs j₀ - 1)) hj₀ hpop, hrun]
        rfl
      · rw [List.mem_append, hys j i, hiff j i,
          yields_cons_rE gs rs hgl hrl q j₀ hj₀len hth₀.2.1 hth₀.2.2 hpw j i]

/-- Claim C1 (amended): for every contig, every finite list of proper gene
intervals and every finite list of read alignments with effective threshold
1 ≤ L ≤ 131071, `match_read_gene` on the ascending numeric sort of the
merged packed events yields exactly the (read, gene) pairs whose intervals
properly overlap and satisfy
min(r_end, g_end) − max(r_start, g_start) ≥ L − 1 (the code stores
`(code >> 31) - 1`, so the comparison is against L − 1, not L). -/
theorem match_read_gene_exact (gs : List (ℕ × ℕ)) (rs : List (ℕ × ℕ × ℕ))
    (hg : ∀ i, i < gs.length → gbeg gs i < gend gs i)
    (hr : ∀ j, j < rs.length → rbeg rs j < rend rs j ∧ 1 ≤ rthr rs j ∧ rthr rs j ≤ 131071)
    (hgl : gs.length ≤ 2 ^ 30) (hrl : rs.length ≤ 2 ^ 30) :
    ∃ out, match_read_gene (mergedQueue gs rs) = .ok out ∧
      ∀ j i, ((j, i) ∈ out ↔
        (j < rs.length ∧ i < gs.length ∧
          max (gbeg gs i) (rbeg rs j) < min (gend gs i) (rend rs j) ∧
          max (gbeg gs i) (rbeg rs j) + rthr rs j ≤ min (gend gs i) (rend rs j) + 1)) := by
  have hw : ∀ x ∈ rs, 1 ≤ x.2.2 ∧ x.2.2 ≤ 131071 := by
    intro x hx
    obtain ⟨n, hn, hxe⟩ := List.mem_iff_getElem.mp hx
    have hthr : rthr rs n = x.2.2 := by
      rw [rthr, List.getD_eq_getElem?_getD, List.getElem?_eq_getElem hn]
      simp [hxe]
    have := (hr n hn).2
    omega
  have hpw := mergedQueue_pairwise gs rs hgl hrl hw
  have hgSin : ∀ i, i < gs.length → gS gs i ∈ mergedQueue gs rs := fun i hi =>
    (mem_mergedQueue gs rs _).mpr (Or.inl ⟨i, hi, Or.inl rfl⟩)
  have hgEin : ∀ i, i < gs.length → gE gs i ∈ mergedQueue gs rs := fun i hi =>
    (mem_mergedQueue gs rs _).mpr (Or.inl ⟨i, hi, Or.inr rfl⟩)
  have hrSin : ∀ j, j < rs.length → rS rs j ∈ mergedQueue gs rs := fun j hj =>
    (mem_mergedQueue gs rs _).mpr (Or.inr ⟨j, hj, Or.inl rfl⟩)
  have hrEin : ∀ j, j < rs.length → rE rs j ∈ mergedQueue gs rs := fun j hj =>
    (mem_mergedQueue gs rs _).mpr (Or.inr ⟨j, hj, Or.inr rfl⟩)
  have hGI : GInv gs (mergedQueue gs rs) [] := by
    intro i v
    constructor
    · intro h
      exact absurd h (by simp [alistGet])
    · rintro ⟨hilen, _, _, hnot⟩
      exact absurd (hgSin i hilen) hnot
  have hRI : RInv rs (mergedQueue gs rs) [] := by
    intro j v
    constructor
    · intro h
      exact absurd h (by simp [alistGet])
    · rintro ⟨hjlen, _, _, hnot⟩
      exact absurd (hrSin j hjlen) hnot
  obtain ⟨out, hrun, hiff⟩ := matchRun_spec gs rs hg hr hgl hrl (mergedQueue gs rs) [] []
    hpw (fun c hc => (mem_mergedQueue gs rs c).mp hc)
    (fun i hi _ => hgEin i hi) (fun j hj _ => hrEin j hj) hGI hRI (by simp) (by simp)
  refine ⟨out, hrun, fun j i => (hiff j i).trans ?_⟩
  constructor
  · rintro ⟨hj, hi, hGR⟩
    have hi30 : i < 2 ^ 30 := lt_of_lt_of_le hi hgl
    have hj30 : j < 2 ^ 30 := lt_of_lt_of_le hj hrl
    have hgi := hg i hi
    have hrj := hr j hj
    refine ⟨hj, hi, ?_, ?_⟩
    · rcases hGR with ⟨h1, h2, h3, h4, h5⟩ | ⟨h1, h2, h3, h4, h5⟩
      · have hge : gend gs i < rend rs j := (gE_lt_rE_iff gs rs i j hi30 hj30).mp h3
        have hrb : rbeg rs j < gend gs i :=
          (rS_lt_gE_iff gs rs i j hi30 hj30 hrj.2.2 hrj.2.1).mp (h4 (hrSin j hj))
        omega
      · have hge : rend rs j ≤ gend gs i := (rE_lt_gE_iff gs rs i j hi30 hj30).mp h3
        have hgb : gbeg gs i < rend rs j :=
          (gS_lt_rE_iff gs rs i j hi30 hj30).mp (h4 (hgSin i hi))
        omega
    · rcases hGR with ⟨h1, h2, h3, h4, h5⟩ | ⟨h1, h2, h3, h4, h5⟩
      · have hge : gend gs i < rend rs j := (gE_lt_rE_iff gs rs i j hi30 hj30).mp h3
        rw [arithG] at h5
        omega
      · have hge : rend rs j ≤ gend gs i := (rE_lt_gE_iff gs rs i j hi30 hj30).mp h3
        rw [arithR] at h5
        omega
  · rintro ⟨hj, hi, hovl, hth⟩
    have hi30 : i < 2 ^ 30 := lt_of_lt_of_le hi hgl
    have hj30 : j < 2 ^ 30 := lt_of_lt_of_le hj hrl
    have hgi := hg i hi
    have hrj := hr j hj
    refine ⟨hj, hi, ?_⟩
    by_cases hle : gend gs i < rend rs j
    · left
      refine ⟨hgEin i hi, hrEin j hj, (gE_lt_rE_iff gs rs i j hi30 hj30).mpr hle, ?_, ?_⟩
      · intro _
        refine (rS_lt_gE_iff gs rs i j hi30 hj30 hrj.2.2 hrj.2.1).mpr ?_
        omega
      · rw [arithG]
        omega
    · right
      refine ⟨hgEin i hi, hrEin j hj,
        (rE_lt_gE_iff gs rs i j hi30 hj30).mpr (by omega), ?_, ?_⟩
      · intro _
        refine (gS_lt_rE_iff gs rs i j hi30 hj30).mpr ?_
        omega
      · rw [arithR]
        omega

/-- Claim C1 (counterexample): on the contig with one gene [10, 20] and one
read alignment [11, 25] with effective threshold L = 10, `match_read_gene`
on the sorted merged queue yields the pair (read 0, gene 0), although
min(r_end, g_end) − max(r_start, g_start) = 9 < L, so the yielded set is
not the set claimed (the code compares against L − 1, not L). -/
theorem match_read_gene_claim_cex :
    match_read_gene (mergedQueue [(10, 20)] [(11, 25, 10)]) = .ok [(0, 0)] ∧
      ¬(max 10 11 + 10 ≤ min 20 25) := by
  constructor
  · decide
  · decide

/-- Claim C1 (witness): the amended exact characterization applied to the
concrete contig with gene [10, 20] and read [11, 25] with L = 10. -/
theorem match_read_gene_exact_witness :
    ∃ out, match_read_gene (mergedQueue [(10, 20)] [(11, 25, 10)]) = .ok out ∧
      ∀ j i, ((j, i) ∈ out ↔
        (j < 1 ∧ i < 1 ∧
          max (gbeg [(10, 20)] i) (rbeg [(11, 25, 10)] j) <
            min (gend [(10, 20)] i) (rend [(11, 25, 10)] j) ∧
          max (gbeg [(10, 20)] i) (rbeg [(11, 25, 10)] j) + rthr [(11, 25, 10)] j ≤
            min (gend [(10, 20)] i) (rend [(11, 25, 10)] j) + 1)) :=
  match_read_gene_exact [(10, 20)] [(11, 25, 10)]
    (by decide) (by decide) (by decide) (by decide)

/-- Claim C2: on the same contig (gene [10, 20]; one read [11, 25] with
L = 10) the merged sweep `match_read_gene` yields (0, 0) because
20 − max(10, 11) = 9 ≥ L − 1, while `match_read_gene_naive` yields nothing
because min(20, 25) − max(10, 11) = 9 < L: the two algorithms disagree. -/
theorem sweep_naive_divergence :
    match_read_gene (mergedQueue [(10, 20)] [(11, 25, 10)]) = .ok [(0, 0)] ∧
      match_read_gene_naive (packGenesFrom 0 [(10, 20)])
        (packReadsFrom 0 [(11, 25, 10)]) = .ok [] := by
  constructor
  · decide
  · decide

/-- Per-contig matching inside the flush (`ordinal.py` lines 99-117):
`sorted(chain(glocs, locs))` then the sweep when `len(locs) > 8`, the naive
nested scan otherwise. -/
def flushContigPairs (glocs locs : List ℕ) : Except PyErr (List (ℕ × ℕ)) :=
  if locs.length > 8 then match_read_gene (List.insertionSort (· ≤ ·) (glocs ++ locs))
  else match_read_gene_naive glocs locs

/-- Claim C5 (counterexample): a contig with 10 read events (≤ 16), where
the flush runs the merged sweep, not the naive scan — observable because
the two algorithms return different results on this input. -/
theorem flush_cutoff_cex :
    (packReadsFrom 0 [(11, 25, 10), (100, 110, 5), (100, 111, 5), (100, 112, 5),
      (100, 113, 5)]).length = 10 ∧
    flushContigPairs (packGenesFrom 0 [(10, 20)])
      (packReadsFrom 0 [(11, 25, 10), (100, 110, 5), (100, 111, 5), (100, 112, 5),
        (100, 113, 5)]) = .ok [(0, 0)] ∧
    match_read_gene_naive (packGenesFrom 0 [(10, 20)])
      (packReadsFrom 0 [(11, 25, 10), (100, 110, 5), (100, 111, 5), (100, 112, 5),
        (100, 113, 5)]) = .ok [] := by
  refine ⟨by decide, by decide, by decide⟩

/-- Claim C5 (amended): per contig, the flush runs the naive nested scan
when the read-event count is at most 8, and the merged sweep when it
exceeds 8. -/
theorem flush_cutoff_eight (glocs locs : List ℕ) :
    (locs.length ≤ 8 → flushContigPairs glocs locs = match_read_gene_naive glocs locs) ∧
    (8 < locs.length → flushContigPairs glocs locs =
      match_read_gene (List.insertionSort (· ≤ ·) (glocs ++ locs))) := by
  constructor
  · intro h
    rw [flushContigPairs, if_neg (by omega)]
  · intro h
    rw [flushContigPairs, if_pos h]

/-- Claim C5 (witness): at the concrete 10-event contig the flush equals
the sweep on the sorted merged queue. -/
theorem flush_cutoff_eight_witness :
    flushContigPairs (packGenesFrom 0 [(10, 20)])
      (packReadsFrom 0 [(11, 25, 10), (100, 110, 5), (100, 111, 5), (100, 112, 5),
        (100, 113, 5)]) =
    match_read_gene (List.insertionSort (· ≤ ·) (packGenesFrom 0 [(10, 20)] ++
      packReadsFrom 0 [(11, 25, 10), (100, 110, 5), (100, 111, 5), (100, 112, 5),
        (100, 113, 5)])) :=
  (flush_cutoff_eight _ _).2 (by decide)

/-- Packed read start event appended by the ingest loop (`ordinal.py` line
158): `(beg << 48) + (elen << 31) + idx`, where `elen` is the effective
length `-int(-length * th // 1)` = ceil(length × th). -/
def readStartCode (beg elen idx : ℕ) : ℕ := (beg <<< 48) + (elen <<< 31) + idx

/-- Packed read end event appended by the ingest loop (line 159). -/
def readEndCode (ed idx : ℕ) : ℕ := (ed <<< 48) + idx

/-- Position field decoder (`code >> 48`), as documented and used in
`match_read_gene`. -/
def evPos (code : ℕ) : ℕ := code >>> 48

/-- Effective length field decoder (`code >> 31 & 131071`). -/
def evLen (code : ℕ) : ℕ := (code >>> 31) &&& 131071

/-- Index field decoder (`code & (1 << 30) - 1`). -/
def evIdx (code : ℕ) : ℕ := code &&& ((1 <<< 30) - 1)

/-- Claim C6 (counterexample): for an alignment whose effective threshold is
131072 (> 131071), the stored 17-bit field is 0 — not the claimed clamped
value 131071 — and the excess corrupts the position field (beg 5 reads back
as 6). -/
theorem readStartCode_no_clamp_cex :
    evLen (readStartCode 5 131072 0) = 0 ∧ evLen (readStartCode 5 131072 0) ≠ 131071 ∧
      evPos (readStartCode 5 131072 0) = 6 := by
  refine ⟨by decide, by decide, by decide⟩

/-- Claim C6 (amended): the ingest loop performs no clamping: the stored
17-bit field is `elen mod 2^17` and the excess `elen / 2^17` carries into
the position field, so an overflowing effective length produces a malformed
event. -/
theorem readStartCode_no_clamp (beg elen idx : ℕ) (hidx : idx < 2 ^ 30) :
    evLen (readStartCode beg elen idx) = elen % 2 ^ 17 ∧
    evPos (readStartCode beg elen idx) = beg + elen / 2 ^ 17 := by
  constructor
  · rw [evLen, and_mask17]
    simp only [readStartCode, Nat.shiftLeft_eq, Nat.shiftRight_eq_div_pow]
    omega
  · rw [evPos]
    simp only [readStartCode, Nat.shiftLeft_eq, Nat.shiftRight_eq_div_pow]
    omega

/-- Claim C6 (witness): the amended statement at `beg = 5`, `elen = 131072`,
`idx = 0`. -/
theorem readStartCode_no_clamp_witness :
    evLen (readStartCode 5 131072 0) = 131072 % 2 ^ 17 ∧
    evPos (readStartCode 5 131072 0) = 5 + 131072 / 2 ^ 17 :=
  readStartCode_no_clamp 5 131072 0 (by decide)

/-- A generic packed event per the 30/1/17/16 layout: index in bits 0-29,
gene flag in bit 30, length-or-flag in bits 31-47, position in bits 48+. -/
def packEvent (pos elen g idx : ℕ) : ℕ :=
  (pos <<< 48) + (elen <<< 31) + (g <<< 30) + idx

/-- Well-formedness of a packed 64-bit event: every field within its
bit width. -/
def WFEvent (pos elen g idx : ℕ) : Prop :=
  pos < 2 ^ 16 ∧ elen ≤ 131071 ∧ g ≤ 1 ∧ idx < 2 ^ 30

theorem evPos_packEvent (pos elen g idx : ℕ) (h : WFEvent pos elen g idx) :
    evPos (packEvent pos elen g idx) = pos := by
  obtain ⟨h1, h2, h3, h4⟩ := h
  rw [evPos]
  simp only [packEvent, Nat.shiftLeft_eq, Nat.shiftRight_eq_div_pow]
  omega

theorem evLen_packEvent (pos elen g idx : ℕ) (h : WFEvent pos elen g idx) :
    evLen (packEvent pos elen g idx) = elen := by
  obtain ⟨h1, h2, h3, h4⟩ := h
  rw [evLen, and_mask17]
  simp only [packEvent, Nat.shiftLeft_eq, Nat.shiftRight_eq_div_pow]
  omega

theorem packEvent_le_rel (p1 l1 g1 i1 p2 l2 g2 i2 : ℕ) (h1 : WFEvent p1 l1 g1 i1)
    (h2 : WFEvent p2 l2 g2 i2)
    (hle : packEvent p1 l1 g1 i1 ≤ packEvent p2 l2 g2 i2) :
    p1 < p2 ∨ (p1 = p2 ∧ (l1 = 0 ∨ l2 ≠ 0)) := by
  obtain ⟨a1, b1, c1, d1⟩ := h1
  obtain ⟨a2, b2, c2, d2⟩ := h2
  simp only [packEvent, Nat.shiftLeft_eq] at hle
  omega

/-- Claim C3: numeric order of well-formed packed events is primarily by
position, and at equal position every end event (length field 0) precedes
every start event (length field > 0), regardless of the gene flag and index
bits; consequently the ascending numeric sort of any list of well-formed
packed events is ordered by (position, end-before-start). -/
theorem packed_sort_order :
    (∀ p1 l1 g1 i1 p2 l2 g2 i2 : ℕ, WFEvent p1 l1 g1 i1 → WFEvent p2 l2 g2 i2 →
      ((p1 < p2 → packEvent p1 l1 g1 i1 < packEvent p2 l2 g2 i2) ∧
       (p1 = p2 → l1 = 0 → 0 < l2 → packEvent p1 l1 g1 i1 < packEvent p2 l2 g2 i2))) ∧
    (∀ evs : List (ℕ × ℕ × ℕ × ℕ), (∀ e ∈ evs, WFEvent e.1 e.2.1 e.2.2.1 e.2.2.2) →
      (List.insertionSort (· ≤ ·)
        (evs.map (fun e => packEvent e.1 e.2.1 e.2.2.1 e.2.2.2))).Pairwise
        (fun a b => evPos a < evPos b ∨ (evPos a = evPos b ∧ (evLen a = 0 ∨ evLen b ≠ 0)))) := by
  constructor
  · intro p1 l1 g1 i1 p2 l2 g2 i2 h1 h2
    obtain ⟨a1, b1, c1, d1⟩ := h1
    obtain ⟨a2, b2, c2, d2⟩ := h2
    simp only [packEvent, Nat.shiftLeft_eq]
    omega
  · intro evs hwf
    have hsorted : (List.insertionSort (· ≤ ·)
        (evs.map (fun e => packEvent e.1 e.2.1 e.2.2.1 e.2.2.2))).Pairwise (· ≤ ·) :=
      List.sorted_insertionSort (· ≤ ·) _
    refine hsorted.imp_of_mem ?_
    intro a b ha hb hle
    have hmema := (List.perm_insertionSort (· ≤ ·) _).mem_iff.mp ha
    have hmemb := (List.perm_insertionSort (· ≤ ·) _).mem_iff.mp hb
    obtain ⟨ea, hea, rfl⟩ := List.mem_map.mp hmema
    obtain ⟨eb, heb, rfl⟩ := List.mem_map.mp hmemb
    have hwa := hwf ea hea
    have hwb := hwf eb heb
    rw [evPos_packEvent _ _ _ _ hwa, evPos_packEvent _ _ _ _ hwb,
      evLen_packEvent _ _ _ _ hwa, evLen_packEvent _ _ _ _ hwb]
    exact packEvent_le_rel _ _ _ _ _ _ _ _ hwa hwb hle

/-- Claim C3 (witness): at equal position 5 an end event with gene flag 0
sorts strictly before a start event with gene flag 1. -/
theorem packed_sort_order_witness : packEvent 5 0 0 3 < packEvent 5 2 1 7 :=
  (packed_sort_order.1 5 0 0 3 5 2 1 7 ⟨by decide, by decide, by decide, by decide⟩
    ⟨by decide, by decide, by decide, by decide⟩).2 rfl rfl (by decide)

/-!  Model of `load_gene_coords` (`ordinal.py` lines 215-299).

Lines are lists of characters.  Coordinates parsed by Python `int` may be
negative, so packed gene codes built here live in ℤ (Python `<<` is exact
multiplication by a power of two on unbounded integers).
-/

/-- Python `str.rstrip()`: drop trailing whitespace. -/
def pyRstrip (s : Str) : Str := (s.reverse.dropWhile Char.isWhitespace).reverse

/-- Python `str.strip()`: drop leading and trailing whitespace. -/
def pyStrip (s : Str) : Str :=
  ((s.dropWhile Char.isWhitespace).reverse.dropWhile Char.isWhitespace).reverse

/-- Worker for `pySplitTab`, accumulating the current field reversed. -/
def pySplitTabGo (cur : Str) : Str → List Str
  | [] => [cur.reverse]
  | ch :: t => if ch = '\t' then cur.reverse :: pySplitTabGo [] t else pySplitTabGo (ch :: cur) t

/-- Python `str.split('\t')`: keeps empty fields and always returns at
least one field. -/
def pySplitTab (s : Str) : List Str := pySplitTabGo [] s

/-- Digit-string value, or `none` when empty or not all digits. -/
def digitsVal (s : Str) : Option ℕ :=
  match s with
  | [] => none
  | l =>
    if l.all Char.isDigit then some (l.foldl (fun acc c => acc * 10 + (c.toNat - 48)) 0)
    else none

/-- Python `int(s)`: optional surrounding whitespace, optional sign, at
least one digit (underscore separators are not modelled). -/
def pyInt (s : Str) : Option ℤ :=
  match pyStrip s with
  | '+' :: ds => (digitsVal ds).map (fun n => (n : ℤ))
  | '-' :: ds => (digitsVal ds).map (fun n => -(n : ℤ))
  | ds => (digitsVal ds).map (fun n => (n : ℤ))

/-- `sorted((int(x[1]), int(x[2])))` with the `(IndexError, ValueError)`
handler collapsed to `none` (the source re-raises both as `ValueError`). -/
def parseCoordPair (x : List Str) : Option (ℤ × ℤ) :=
  match x.get? 1, x.get? 2 with
  | some s1, some s2 =>
    match pyInt s1, pyInt s2 with
    | some a, some b => some (min a b, max a b)
    | _, _ => none
  | _, _ => none

/-- Mutable state of the `load_gene_coords` loop. -/
structure LoadSt where
  coords : List (Str × List ℤ)
  idmap : List (Str × List Str)
  cur : Option Str
  used : List Str
  isdup : Option Bool
deriving DecidableEq

/-- Initial state: empty tables, no current contig. -/
def initLoadSt : LoadSt := ⟨[], [], none, [], none⟩

/-- State update for one gene record under contig `nucl`: append the gene
id, append the two packed events, and update the duplicate bookkeeping. -/
def geneUpdate (st : LoadSt) (nucl : Str) (gids : List Str) (queue : List ℤ)
    (gene : Str) (beg ed : ℤ) : LoadSt :=
  { coords := alistPut st.coords nucl (queue ++
      [beg * 2 ^ 48 + 3 * 2 ^ 30 + (gids.length : ℤ),
       ed * 2 ^ 48 + 2 ^ 30 + (gids.length : ℤ)]),
    idmap := alistPut st.idmap nucl (gids ++ [gene]),
    cur := st.cur,
    used := if st.isdup = none ∧ gene ∉ st.used then st.used ++ [gene] else st.used,
    isdup := if st.isdup = none ∧ gene ∈ st.used then some true else st.isdup }

/-- One line of `load_gene_coords`.  Errors: `IndexError` on `line[0]` /
`line[1]` of a too-short line, `ValueError` when the coordinate fields do
not parse, `TypeError` when a gene record precedes the first header (the
source calls `len(None)`).  The `keyError` branch is unreachable: `cur` is
always a key of both tables (they are rebound together at each header). -/
def loadLine (st : LoadSt) (line : Str) : Except PyErr LoadSt :=
  match line.head? with
  | none => .error .indexError
  | some c0 =>
    if c0 = '>' ∨ c0 = '#' then
      match (line.drop 1).head? with
      | none => .error .indexError
      | some c1 =>
        if c1 ≠ c0 then
          let nucl := pyStrip (line.drop 1)
          .ok { st with coords := alistPut st.coords nucl [],
                        idmap := alistPut st.idmap nucl [],
                        cur := some nucl }
        else .ok st
    else
      let x := pySplitTab (pyRstrip line)
      match parseCoordPair x with
      | none => .error .valueError
      | some (beg, ed) =>
        match st.cur with
        | none => .error .typeError
        | some nucl =>
          match alistGet st.idmap nucl, alistGet st.coords nucl with
          | some gids, some queue => .ok (geneUpdate st nucl gids queue (x.headD []) beg ed)
          | _, _ => .error .keyError

/-- Fold `loadLine` over the input lines. -/
def runLoad : LoadSt → List Str → Except PyErr LoadSt
  | st, [] => .ok st
  | st, l :: t =>
    match loadLine st l with
    | .error e => .error e
    | .ok st' => runLoad st' t

/-- `load_gene_coords(fh, sort)`: returns the coordinates table, the gene
identifier table, and the duplicate flag (`isdup or False`). -/
def load_gene_coords (lines : List Str) (sortQ : Bool) :
    Except PyErr (List (Str × List ℤ) × List (Str × List Str) × Bool) :=
  match runLoad initLoadSt lines with
  | .error e => .error e
  | .ok st =>
    .ok (if sortQ then st.coords.map (fun p => (p.1, List.insertionSort (· ≤ ·) p.2))
         else st.coords, st.idmap, st.isdup.getD false)

theorem runLoad_append (l1 l2 : List Str) : ∀ st, runLoad st (l1 ++ l2) =
    match runLoad st l1 with
    | .error e => .error e
    | .ok st' => runLoad st' l2 := by
  induction l1 with
  | nil => intro st; rfl
  | cons l t ih =>
    intro st
    simp only [List.cons_append, runLoad]
    cases h : loadLine st l with
    | error e => simp
    | ok st' => simp [ih st']

instance : DecidableEq (List (Str × List ℤ) × List (Str × List Str) × Bool) :=
  instDecidableEqProd

/-- Claim C7 (counterexample): the same well-formed coordinates input
succeeds without a blank line, but adding a blank line ("\n") makes
`load_gene_coords` raise ValueError instead of ignoring it. -/
theorem load_blank_line_cex :
    load_gene_coords [['>', 'a', '\n'], ['g', '\t', '1', '\t', '5', '\n']] false =
      .ok ([(['a'], [(1 : ℤ) * 2 ^ 48 + 3 * 2 ^ 30 + 0, 5 * 2 ^ 48 + 2 ^ 30 + 0])],
        [(['a'], [['g']])], false) ∧
    load_gene_coords [['>', 'a', '\n'], ['\n'], ['g', '\t', '1', '\t', '5', '\n']] false =
      .error .valueError := by
  constructor
  · decide
  · decide

/-- Claim C7 (amended): a blank line ("\n") is never ignored: wherever it
appears after an error-free prefix, `load_gene_coords` fails with
ValueError (the line is handled as a gene record whose coordinate fields
cannot be extracted). -/
theorem load_blank_line_value_error (pre post : List Str) (st : LoadSt)
    (h : runLoad initLoadSt pre = .ok st) :
    load_gene_coords (pre ++ ['\n'] :: post) false = .error .valueError := by
  have hstep : loadLine st ['\n'] = .error .valueError := rfl
  rw [load_gene_coords, runLoad_append, h]
  simp [runLoad, hstep]

/-- Claim C7 (witness): the amended statement at a concrete one-header
prefix and empty suffix. -/
theorem load_blank_line_value_error_witness :
    load_gene_coords ([['>', 'a', '\n']] ++ ['\n'] :: []) false = .error .valueError :=
  load_blank_line_value_error [['>', 'a', '\n']] []
    ⟨[(['a'], [])], [(['a'], [])], some ['a'], [], none⟩ (by decide)

/-- Claim C8 (counterexample): a header line carrying an empty contig name
does not fail: `load_gene_coords` accepts it and opens a contig whose name
is the empty string. -/
theorem load_empty_header_cex :
    load_gene_coords [['>', '\n']] false = .ok ([([], [])], [([], [])], false) := by
  decide

/-- A line starting with a doubled genome marker, which the loader ignores. -/
def isDoubledHeader (l : Str) : Prop :=
  ∃ c0 t, l = c0 :: c0 :: t ∧ (c0 = '>' ∨ c0 = '#')

theorem loadLine_doubled (st : LoadSt) (m : Str) (hm : isDoubledHeader m) :
    loadLine st m = .ok st := by
  obtain ⟨c0, t, rfl, hc⟩ := hm
  rcases hc with rfl | rfl
  · rfl
  · rfl

theorem runLoad_doubled (pre : List Str) (hpre : ∀ m ∈ pre, isDoubledHeader m) (st : LoadSt) :
    runLoad st pre = .ok st := by
  induction pre with
  | nil => rfl
  | cons m t ih =>
    rw [runLoad, loadLine_doubled st m (hpre m (List.mem_cons_self _ _))]
    exact ih (fun m' hm' => hpre m' (List.mem_cons_of_mem _ hm'))

/-- Claim C8 (amended): a gene record (or any non-header line) before the
first contig header makes `load_gene_coords` fail — with IndexError on an
empty line, ValueError when the coordinate fields do not parse, TypeError
otherwise (from `len(None)`); there is no dedicated OrphanGeneRecord error.
A header line with an empty contig name does not fail: it opens a contig
named by the empty string. -/
theorem load_orphan_and_empty_header :
    (∀ (pre : List Str) (l : Str) (post : List Str),
      (∀ m ∈ pre, isDoubledHeader m) →
      (∀ ch, l.head? = some ch → ch ≠ '>' ∧ ch ≠ '#') →
      ∃ e, load_gene_coords (pre ++ l :: post) false = .error e) ∧
    load_gene_coords [['>', '\n']] false = .ok ([([], [])], [([], [])], false) := by
  constructor
  · intro pre l post hpre hl
    have hstep : ∃ e, loadLine initLoadSt l = .error e := by
      match l with
      | [] => exact ⟨.indexError, rfl⟩
      | ch :: t =>
        have hch := hl ch rfl
        rw [loadLine]
        simp only [List.head?_cons]
        rw [if_neg (by simp [hch.1, hch.2])]
        rcases hp : parseCoordPair (pySplitTab (pyRstrip (ch :: t))) with _ | ⟨beg, ed⟩
        · exact ⟨.valueError, rfl⟩
        · exact ⟨.typeError, rfl⟩
    obtain ⟨e, he⟩ := hstep
    refine ⟨e, ?_⟩
    rw [load_gene_coords, runLoad_append, runLoad_doubled pre hpre initLoadSt]
    simp [runLoad, he]
  · decide

/-- Claim C8 (witness): a gene record as the first line after an ignored
doubled header fails. -/
theorem load_orphan_witness :
    ∃ e, load_gene_coords ([['#', '#', 'x']] ++
      ['g', '\t', '1', '\t', '5', '\n'] :: []) false = .error e :=
  load_orphan_and_empty_header.1 [['#', '#', 'x']] ['g', '\t', '1', '\t', '5', '\n'] []
    (by
      intro m hm
      simp only [List.mem_singleton] at hm
      subst hm
      exact ⟨'#', ['x'], rfl, Or.inr rfl⟩)
    (by
      intro ch hch
      simp only [List.head?_cons, Option.some.injEq] at hch
      subst hch
      exact ⟨by decide, by decide⟩)

/-- Agreement of two loader states on everything that can still influence
the coordinates and identifiers recorded for contig `c`: same current
contig, same tables at `c`, and same tables at the current contig. -/
def CoordAgree (c : Str) (s1 s2 : LoadSt) : Prop :=
  s1.cur = s2.cur ∧
  alistGet s1.coords c = alistGet s2.coords c ∧
  alistGet s1.idmap c = alistGet s2.idmap c ∧
  (∀ d, s1.cur = some d → alistGet s1.coords d = alistGet s2.coords d ∧
    alistGet s1.idmap d = alistGet s2.idmap d)

theorem loadLine_agree (c : Str) (s1 s2 : LoadSt) (hA : CoordAgree c s1 s2) (l : Str) :
    (∃ e, loadLine s1 l = .error e ∧ loadLine s2 l = .error e) ∨
    (∃ s1' s2', loadLine s1 l = .ok s1' ∧ loadLine s2 l = .ok s2' ∧ CoordAgree c s1' s2') := by
  obtain ⟨hcur, hcoords, hidmap, hd⟩ := hA
  match l with
  | [] => exact Or.inl ⟨.indexError, rfl, rfl⟩
  | c0 :: t =>
    rw [loadLine, loadLine]
    simp only [List.head?_cons]
    by_cases hc0 : c0 = '>' ∨ c0 = '#'
    · rw [if_pos hc0, if_pos hc0]
      match t with
      | [] => exact Or.inl ⟨.indexError, rfl, rfl⟩
      | c1 :: t' =>
        simp only [List.drop_succ_cons, List.drop_zero, List.head?_cons]
        by_cases hc1 : c1 ≠ c0
        · rw [if_pos hc1, if_pos hc1]
          refine Or.inr ⟨_, _, rfl, rfl, ?_, ?_, ?_, ?_⟩
          · rfl
          · simp only [alistGet_put]
            split
            · rfl
            · exact hcoords
          · simp only [alistGet_put]
            split
            · rfl
            · exact hidmap
          · intro d hdq
            simp only [Option.some.injEq] at hdq
            subst hdq
            simp [alistGet_put]
        · rw [if_neg hc1, if_neg hc1]
          exact Or.inr ⟨s1, s2, rfl, rfl, hcur, hcoords, hidmap, hd⟩
    · rcases hp : parseCoordPair (pySplitTab (pyRstrip (c0 :: t))) with _ | ⟨beg, ed⟩
      · refine Or.inl ⟨.valueError, ?_, ?_⟩ <;> simp [loadLine, hc0, hp]
      · rcases hq : s1.cur with _ | nucl
        · have hq2 : s2.cur = none := hcur ▸ hq
          refine Or.inl ⟨.typeError, ?_, ?_⟩
          · simp [loadLine, hc0, hp, hq]
          · simp [loadLine, hc0, hp, hq2]
        · have hq2 : s2.cur = some nucl := hcur ▸ hq
          obtain ⟨hdc, hdi⟩ := hd nucl hq
          have hdi2 : alistGet s2.idmap nucl = alistGet s1.idmap nucl := hdi.symm
          have hdc2 : alistGet s2.coords nucl = alistGet s1.coords nucl := hdc.symm
          rcases hgi : alistGet s1.idmap nucl with _ | gids
          · refine Or.inl ⟨.keyError, ?_, ?_⟩
            · simp [loadLine, hc0, hp, hq, hgi]
            · simp [loadLine, hc0, hp, hq2, hdi2, hgi]
          · rcases hgc : alistGet s1.coords nucl with _ | queue
            · refine Or.inl ⟨.keyError, ?_, ?_⟩
              · simp [loadLine, hc0, hp, hq, hgi, hgc]
              · simp [loadLine, hc0, hp, hq2, hdi2, hdc2, hgi, hgc]
            · refine Or.inr ⟨geneUpdate s1 nucl gids queue
                ((pySplitTab (pyRstrip (c0 :: t))).headD []) beg ed,
                geneUpdate s2 nucl gids queue
                ((pySplitTab (pyRstrip (c0 :: t))).headD []) beg ed,
                ?_, ?_, ?_, ?_, ?_, ?_⟩
              · simp [loadLine, hc0, hp, hq, hgi, hgc]
              · simp [loadLine, hc0, hp, hq2, hdi2, hdc2, hgi, hgc]
              · simp only [geneUpdate]
                exact hcur
              · simp only [geneUpdate, alistGet_put]
                split
                · rfl
                · exact hcoords
              · simp only [geneUpdate, alistGet_put]
                split
                · rfl
                · exact hidmap
              · intro d hdq
                simp only [geneUpdate] at hdq
                have hdq' : nucl = d := by
                  rw [hq] at hdq
                  injection hdq
                subst hdq'
                simp [geneUpdate, alistGet_put]

theorem runLoad_agree (c : Str) : ∀ (ls : List Str) (s1 s2 : LoadSt), CoordAgree c s1 s2 →
    (∃ e, runLoad s1 ls = .error e ∧ runLoad s2 ls = .error e) ∨
    (∃ s1' s2', runLoad s1 ls = .ok s1' ∧ runLoad s2 ls = .ok s2' ∧ CoordAgree c s1' s2') := by
  intro ls
  induction ls with
  | nil =>
    intro s1 s2 hA
    exact Or.inr ⟨s1, s2, rfl, rfl, hA⟩
  | cons l t ih =>
    intro s1 s2 hA
    rcases loadLine_agree c s1 s2 hA l with ⟨e, he1, he2⟩ | ⟨s1', s2', ho1, ho2, hA'⟩
    · rw [runLoad, he1, runLoad, he2]
      exact Or.inl ⟨e, rfl, rfl⟩
    · rw [runLoad, ho1, runLoad, ho2]
      exact ih s1' s2' hA'

/-- Claim C10: after a header line re-opens contig `c`, the coordinates and
identifiers finally recorded for `c` are exactly those produced by the
remaining input alone: everything read for `c` under any earlier prefix
(including a previous occurrence of the same header) is discarded, because
the header rebinds `coords[c]` and `idmap[c]` to fresh empty lists. -/
theorem load_dup_header_reset (pre post : List Str) (c0 c1 : Char) (t : Str) (st : LoadSt)
    (hc0 : c0 = '>' ∨ c0 = '#') (hc1 : c1 ≠ c0)
    (hpre : runLoad initLoadSt pre = .ok st) :
    ((load_gene_coords (pre ++ (c0 :: c1 :: t) :: post) false).map
      (fun r => (alistGet r.1 (pyStrip (c1 :: t)), alistGet r.2.1 (pyStrip (c1 :: t))))) =
    ((load_gene_coords ((c0 :: c1 :: t) :: post) false).map
      (fun r => (alistGet r.1 (pyStrip (c1 :: t)), alistGet r.2.1 (pyStrip (c1 :: t))))) := by
  have hstep : ∀ s : LoadSt, loadLine s (c0 :: c1 :: t) =
      .ok { s with coords := alistPut s.coords (pyStrip (c1 :: t)) [],
                   idmap := alistPut s.idmap (pyStrip (c1 :: t)) [],
                   cur := some (pyStrip (c1 :: t)) } := by
    intro s
    simp [loadLine, hc0, hc1]
  have hagree : CoordAgree (pyStrip (c1 :: t))
      { st with coords := alistPut st.coords (pyStrip (c1 :: t)) [],
                idmap := alistPut st.idmap (pyStrip (c1 :: t)) [],
                cur := some (pyStrip (c1 :: t)) }
      { initLoadSt with coords := alistPut initLoadSt.coords (pyStrip (c1 :: t)) [],
                        idmap := alistPut initLoadSt.idmap (pyStrip (c1 :: t)) [],
                        cur := some (pyStrip (c1 :: t)) } := by
    refine ⟨rfl, ?_, ?_, ?_⟩
    · simp [alistGet_put]
    · simp [alistGet_put]
    · intro d hdq
      simp only [Option.some.injEq] at hdq
      subst hdq
      simp [alistGet_put]
  have h1 : runLoad initLoadSt (pre ++ (c0 :: c1 :: t) :: post) =
      runLoad { st with coords := alistPut st.coords (pyStrip (c1 :: t)) [],
                        idmap := alistPut st.idmap (pyStrip (c1 :: t)) [],
                        cur := some (pyStrip (c1 :: t)) } post := by
    rw [runLoad_append, hpre]
    show runLoad st ((c0 :: c1 :: t) :: post) = _
    rw [runLoad, hstep st]
  have h2 : runLoad initLoadSt ((c0 :: c1 :: t) :: post) =
      runLoad { initLoadSt with
          coords := alistPut initLoadSt.coords (pyStrip (c1 :: t)) [],
          idmap := alistPut initLoadSt.idmap (pyStrip (c1 :: t)) [],
          cur := some (pyStrip (c1 :: t)) } post := by
    rw [runLoad, hstep initLoadSt]
  rw [load_gene_coords, load_gene_coords, h1, h2]
  rcases runLoad_agree (pyStrip (c1 :: t)) post _ _ hagree with ⟨e, he1, he2⟩ |
    ⟨s1', s2', ho1, ho2, hA'⟩
  · rw [he1, he2]
  · rw [ho1, ho2]
    simp [Except.map, hA'.2.1, hA'.2.2.1]

/-- Claim C10 (witness): with contig c listed before with gene g, then the
header repeated and gene h after it, the final tables for c equal those of
the run that starts at the repeated header. -/
theorem load_dup_header_reset_witness :
    ((load_gene_coords ([['>', 'c', '\n'], ['g', '\t', '1', '\t', '5', '\n']] ++
      ('>' :: 'c' :: ['\n']) :: [['h', '\t', '2', '\t', '9', '\n']]) false).map
      (fun r => (alistGet r.1 (pyStrip ('c' :: ['\n'])), alistGet r.2.1 (pyStrip ('c' :: ['\n']))))) =
    ((load_gene_coords (('>' :: 'c' :: ['\n']) :: [['h', '\t', '2', '\t', '9', '\n']]) false).map
      (fun r => (alistGet r.1 (pyStrip ('c' :: ['\n'])), alistGet r.2.1 (pyStrip ('c' :: ['\n']))))) :=
  load_dup_header_reset [['>', 'c', '\n'], ['g', '\t', '1', '\t', '5', '\n']]
    [['h', '\t', '2', '\t', '9', '\n']] '>' 'c' ['\n']
    ⟨[(['c'], [(1 : ℤ) * 2 ^ 48 + 3 * 2 ^ 30 + 0, 5 * 2 ^ 48 + 2 ^ 30 + 0])],
      [(['c'], [['g']])], some ['c'], [['g']], none⟩
    (Or.inl rfl) (by decide) (by decide)

/-!  Model of `calc_gene_lens` (`ordinal.py` lines 578-605). -/

/-- Python list indexing `l[k]` with `IndexError`. -/
def pyListGet {α : Type} (l : List α) (k : ℕ) : Except PyErr α :=
  match l.get? k with
  | none => .error .indexError
  | some a => .ok a

/-- Inner loop of `calc_gene_lens` over one contig's event queue:
`gid = idmap_[code & (1 << 30) - 1]`, optionally prefixed; on a start
event (`code >> 31 & 131071` nonzero) set `res[gid] = 1 - (code >> 48)`,
on an end event add `code >> 48` (KeyError when absent). -/
def calcQueue (usePfx : Bool) (nuclU : Str) (idmap_ : List Str) :
    List ℕ → List (Str × ℤ) → Except PyErr (List (Str × ℤ))
  | [], res => .ok res
  | code :: rest, res =>
    match pyListGet idmap_ (code &&& ((1 <<< 30) - 1)) with
    | .error e => .error e
    | .ok gid0 =>
      let gid := if usePfx then nuclU ++ gid0 else gid0
      if (code >>> 31) &&& 131071 ≠ 0 then
        calcQueue usePfx nuclU idmap_ rest (alistPut res gid (1 - ((code >>> 48 : ℕ) : ℤ)))
      else
        match alistGet res gid with
        | none => .error .keyError
        | some v =>
          calcQueue usePfx nuclU idmap_ rest (alistPut res gid (v + ((code >>> 48 : ℕ) : ℤ)))

/-- Outer loop of `calc_gene_lens` over the contigs of the coordinates
table (`idmap_ = idmap[nucl]`, `nucl += '_'`). -/
def calcContigs (usePfx : Bool) (idmap : List (Str × List Str)) :
    List (Str × List ℕ) → List (Str × ℤ) → Except PyErr (List (Str × ℤ))
  | [], res => .ok res
  | (nucl, queue) :: rest, res =>
    match alistGet idmap nucl with
    | none => .error .keyError
    | some idmap_ =>
      match calcQueue usePfx (nucl ++ ['_']) idmap_ queue res with
      | .error e => .error e
      | .ok res' => calcContigs usePfx idmap rest res'

/-- `calc_gene_lens(mapper)`: compute gene lengths from the mapper's
`coords`, `idmap` and `prefix` keywords. -/
def calc_gene_lens (usePfx : Bool) (coords : List (Str × List ℕ))
    (idmap : List (Str × List Str)) : Except PyErr (List (Str × ℤ)) :=
  calcContigs usePfx idmap coords []

/-- Gene identifier as emitted by `calc_gene_lens`: contig-prefixed with
an underscore when the prefix option is set. -/
def emitGid (usePfx : Bool) (nucl : Str) (gid : Str) : Str :=
  if usePfx then (nucl ++ ['_']) ++ gid else gid

/-- Coordinates table of a gene table, packed per `load_gene_coords`. -/
def coordsOfTable (tbl : List (Str × List (Str × ℕ × ℕ))) : List (Str × List ℕ) :=
  tbl.map (fun p => (p.1, packGenesFrom 0 (p.2.map (fun g => (g.2.1, g.2.2)))))

/-- Identifier table of a gene table. -/
def idmapOfTable (tbl : List (Str × List (Str × ℕ × ℕ))) : List (Str × List Str) :=
  tbl.map (fun p => (p.1, p.2.map Prod.fst))

theorem rawS_idx (b k : ℕ) (hk : k < 2 ^ 30) :
    ((b <<< 48) + (3 <<< 30) + k) &&& ((1 <<< 30) - 1) = k := by
  rw [and_mask30]
  simp only [Nat.shiftLeft_eq]
  omega

theorem rawS_len (b k : ℕ) (hk : k < 2 ^ 30) :
    (((b <<< 48) + (3 <<< 30) + k) >>> 31) &&& 131071 = 1 := by
  rw [and_mask17]
  simp only [Nat.shiftLeft_eq, Nat.shiftRight_eq_div_pow]
  omega

theorem rawS_pos (b k : ℕ) (hk : k < 2 ^ 30) : ((b <<< 48) + (3 <<< 30) + k) >>> 48 = b := by
  simp only [Nat.shiftLeft_eq, Nat.shiftRight_eq_div_pow]
  omega

theorem rawE_idx (e k : ℕ) (hk : k < 2 ^ 30) :
    ((e <<< 48) + (1 <<< 30) + k) &&& ((1 <<< 30) - 1) = k := by
  rw [and_mask30]
  simp only [Nat.shiftLeft_eq]
  omega

theorem rawE_len (e k : ℕ) (hk : k < 2 ^ 30) :
    (((e <<< 48) + (1 <<< 30) + k) >>> 31) &&& 131071 = 0 := by
  rw [and_mask17]
  simp only [Nat.shiftLeft_eq, Nat.shiftRight_eq_div_pow]
  omega

theorem rawE_pos (e k : ℕ) (hk : k < 2 ^ 30) : ((e <<< 48) + (1 <<< 30) + k) >>> 48 = e := by
  simp only [Nat.shiftLeft_eq, Nat.shiftRight_eq_div_pow]
  omega

theorem calcQueue_start (usePfx : Bool) (nuclU : Str) (idmap_ : List Str) (rest : List ℕ)
    (res : List (Str × ℤ)) (b k : ℕ) (gname : Str) (hk : k < 2 ^ 30)
    (hname : idmap_.get? k = some gname) :
    calcQueue usePfx nuclU idmap_ (((b <<< 48) + (3 <<< 30) + k) :: rest) res =
      calcQueue usePfx nuclU idmap_ rest
        (alistPut res (if usePfx then nuclU ++ gname else gname) (1 - (b : ℤ))) := by
  rw [calcQueue, rawS_idx b k hk]
  simp only [pyListGet, hname]
  rw [if_pos (by rw [rawS_len b k hk]; omega), rawS_pos b k hk]
  norm_cast

theorem calcQueue_end (usePfx : Bool) (nuclU : Str) (idmap_ : List Str) (rest : List ℕ)
    (res : List (Str × ℤ)) (e k : ℕ) (gname : Str) (v : ℤ) (hk : k < 2 ^ 30)
    (hname : idmap_.get? k = some gname)
    (hget : alistGet res (if usePfx then nuclU ++ gname else gname) = some v) :
    calcQueue usePfx nuclU idmap_ (((e <<< 48) + (1 <<< 30) + k) :: rest) res =
      calcQueue usePfx nuclU idmap_ rest
        (alistPut res (if usePfx then nuclU ++ gname else gname) (v + (e : ℤ))) := by
  rw [calcQueue, rawE_idx e k hk]
  simp only [pyListGet, hname]
  rw [if_neg (by rw [rawE_len e k hk]; omega)]
  simp only [hget, rawE_pos e k hk]

/-- Identifiers emitted for one contig's genes (already prefixed). -/
def emittedOf (usePfx : Bool) (nuclU : Str) (gl : List (Str × ℕ × ℕ)) : List Str :=
  gl.map (fun g => if usePfx then nuclU ++ g.1 else g.1)

theorem calcQueue_spec (usePfx : Bool) (nuclU : Str) (idmap_ : List Str) :
    ∀ (gl : List (Str × ℕ × ℕ)) (k : ℕ) (res : List (Str × ℤ)),
      k + gl.length ≤ 2 ^ 30 →
      (∀ i, i < gl.length → idmap_.get? (k + i) = some ((gl.getD i ([], 0, 0)).1)) →
      ∃ res', calcQueue usePfx nuclU idmap_
          (packGenesFrom k (gl.map (fun g => (g.2.1, g.2.2)))) res = .ok res' ∧
        (∀ key, key ∉ emittedOf usePfx nuclU gl → alistGet res' key = alistGet res key) ∧
        ((emittedOf usePfx nuclU gl).Nodup →
          ∀ g ∈ gl, alistGet res' (if usePfx then nuclU ++ g.1 else g.1) =
            some ((g.2.2 : ℤ) - (g.2.1 : ℤ) + 1)) := by
  intro gl
  induction gl with
  | nil =>
    intro k res _ _
    exact ⟨res, rfl, fun key _ => rfl, fun _ g hg => absurd hg (List.not_mem_nil g)⟩
  | cons g t ih =>
    intro k res hsz hlook
    obtain ⟨gname, b, e⟩ := g
    have hk : k < 2 ^ 30 := by
      simp only [List.length_cons] at hsz
      omega
    have hname : idmap_.get? k = some gname := by
      have := hlook 0 (by simp)
      simpa using this
    have hget1 : alistGet (alistPut res (if usePfx then nuclU ++ gname else gname)
        (1 - (b : ℤ))) (if usePfx then nuclU ++ gname else gname) = some (1 - (b : ℤ)) := by
      rw [alistGet_put, if_pos rfl]
    obtain ⟨res', hok, hB, hC⟩ := ih (k + 1)
      (alistPut (alistPut res (if usePfx then nuclU ++ gname else gname) (1 - (b : ℤ)))
        (if usePfx then nuclU ++ gname else gname) ((1 - (b : ℤ)) + (e : ℤ)))
      (by simp only [List.length_cons] at hsz; omega)
      (by
        intro i hi
        have := hlook (i + 1) (by simpa using hi)
        rw [show k + (i + 1) = k + 1 + i by omega] at this
        simpa using this)
    refine ⟨res', ?_, ?_, ?_⟩
    · show calcQueue usePfx nuclU idmap_
        (packGenesFrom k ((gname, b, e) :: t |>.map (fun g => (g.2.1, g.2.2)))) res = _
      rw [List.map_cons]
      show calcQueue usePfx nuclU idmap_
        (((b <<< 48) + (3 <<< 30) + k) :: ((e <<< 48) + (1 <<< 30) + k) ::
          packGenesFrom (k + 1) (t.map (fun g => (g.2.1, g.2.2)))) res = _
      rw [calcQueue_start usePfx nuclU idmap_ _ res b k gname hk hname,
        calcQueue_end usePfx nuclU idmap_ _ _ e k gname (1 - (b : ℤ)) hk hname hget1]
      exact hok
    · intro key hkey
      simp only [emittedOf, List.map_cons, List.mem_cons] at hkey
      push_neg at hkey
      rw [hB key hkey.2]
      rw [alistGet_put, if_neg hkey.1, alistGet_put, if_neg hkey.1]
    · intro hnd g' hg'
      have hnd' : (emittedOf usePfx nuclU ((gname, b, e) :: t)).Nodup := hnd
      simp only [emittedOf, List.map_cons, List.nodup_cons] at hnd'
      rcases List.mem_cons.mp hg' with hh | hh
      · subst hh
        rw [hB _ (by
          intro hmem
          exact hnd'.1 (by simpa [emittedOf] using hmem))]
        rw [alistGet_put, if_pos rfl]
        congr 1
        show (1 : ℤ) - (b : ℤ) + (e : ℤ) = (e : ℤ) - (b : ℤ) + 1
        omega
      · exact hC (by simpa [emittedOf] using hnd'.2) g' hh

/-- All identifiers emitted for a gene table. -/
def emittedOfTable (usePfx : Bool) (tbl : List (Str × List (Str × ℕ × ℕ))) : List Str :=
  tbl.flatMap (fun p => p.2.map (fun g => emitGid usePfx p.1 g.1))

theorem emittedOf_eq (usePfx : Bool) (nucl : Str) (gl : List (Str × ℕ × ℕ)) :
    gl.map (fun g => emitGid usePfx nucl g.1) = emittedOf usePfx (nucl ++ ['_']) gl := by
  simp [emitGid, emittedOf]

theorem calcContigs_spec (usePfx : Bool) (idmap : List (Str × List Str)) :
    ∀ (tbl : List (Str × List (Str × ℕ × ℕ))) (res : List (Str × ℤ)),
      (∀ p ∈ tbl, alistGet idmap p.1 = some (p.2.map Prod.fst)) →
      (∀ p ∈ tbl, p.2.length ≤ 2 ^ 30) →
      ∃ res', calcContigs usePfx idmap (coordsOfTable tbl) res = .ok res' ∧
        (∀ key, key ∉ emittedOfTable usePfx tbl → alistGet res' key = alistGet res key) ∧
        ((emittedOfTable usePfx tbl).Nodup →
          ∀ p ∈ tbl, ∀ g ∈ p.2, alistGet res' (emitGid usePfx p.1 g.1) =
            some ((g.2.2 : ℤ) - (g.2.1 : ℤ) + 1)) := by
  intro tbl
  induction tbl with
  | nil =>
    intro res _ _
    exact ⟨res, rfl, fun key _ => rfl, fun _ p hp => absurd hp (List.not_mem_nil p)⟩
  | cons p t ih =>
    intro res hidm hsz
    obtain ⟨nucl, gl⟩ := p
    have hlook : ∀ i, i < gl.length →
        (gl.map Prod.fst).get? (0 + i) = some ((gl.getD i ([], 0, 0)).1) := by
      intro i hi
      rw [Nat.zero_add, List.get?_map, List.get?_eq_get hi, List.getD_eq_getElem?_getD,
        List.getElem?_eq_getElem hi]
      rfl
    obtain ⟨res2, hok2, hB2, hC2⟩ := calcQueue_spec usePfx (nucl ++ ['_'])
      (gl.map Prod.fst) gl 0 res
      (by simpa using hsz (nucl, gl) (List.mem_cons_self _ _)) hlook
    obtain ⟨res', hok', hB', hC'⟩ := ih res2
      (fun p' hp' => hidm p' (List.mem_cons_of_mem _ hp'))
      (fun p' hp' => hsz p' (List.mem_cons_of_mem _ hp'))
    have hstep : calcContigs usePfx idmap (coordsOfTable ((nucl, gl) :: t)) res =
        calcContigs usePfx idmap (coordsOfTable t) res2 := by
      simp only [coordsOfTable, List.map_cons]
      rw [calcContigs, hidm (nucl, gl) (List.mem_cons_self _ _)]
      simp only [hok2]
    refine ⟨res', hstep ▸ hok', ?_, ?_⟩
    · intro key hkey
      simp only [emittedOfTable, List.flatMap_cons, List.mem_append] at hkey
      push_neg at hkey
      rw [hB' key hkey.2, hB2 key (by rw [← emittedOf_eq]; exact hkey.1)]
    · intro hnd p' hp' g hg
      have hnd2 : ((gl.map (fun g => emitGid usePfx nucl g.1)).Nodup ∧
          (emittedOfTable usePfx t).Nodup ∧
          ∀ a ∈ gl.map (fun g => emitGid usePfx nucl g.1),
            a ∉ emittedOfTable usePfx t) := by
        have := hnd
        simp only [emittedOfTable, List.flatMap_cons, List.nodup_append] at this
        exact ⟨this.1, this.2.1, fun a ha => this.2.2 ha⟩
      rcases List.mem_cons.mp hp' with hh | hh
      · cases hh
        rw [hB' _ (hnd2.2.2 _ (List.mem_map_of_mem _ hg))]
        exact hC2 (by rw [← emittedOf_eq]; exact hnd2.1) g hg
      · exact hC' hnd2.2.1 p' hh g hg

/-- Claim C9 (counterexample): for the GeneIndex with one contig n and one
gene g spanning [10, 20], `calc_gene_lens` returns 11 = end − start + 1
(the start event records 1 − pos, not −pos), not end − start = 10. -/
theorem calc_gene_lens_cex :
    calc_gene_lens false (coordsOfTable [(['n'], [(['g'], 10, 20)])])
      (idmapOfTable [(['n'], [(['g'], 10, 20)])]) = .ok [(['g'], (11 : ℤ))] ∧
      (11 : ℤ) ≠ (20 : ℤ) - 10 := by
  constructor
  · decide
  · decide

/-- Claim C9 (amended): for every GeneIndex (contig-keyed gene table with
distinct contig names and distinct emitted gene ids), `calc_gene_lens`
returns for each gene id (contig-prefixed with an underscore when the
prefix option is set) exactly end − start + 1, computed by recording
1 − pos at the gene's start event and adding pos at its end event. -/
theorem calc_gene_lens_spec (usePfx : Bool) (tbl : List (Str × List (Str × ℕ × ℕ)))
    (hsz : ∀ p ∈ tbl, p.2.length ≤ 2 ^ 30)
    (hnames : (tbl.map Prod.fst).Nodup)
    (hids : (emittedOfTable usePfx tbl).Nodup) :
    ∃ res, calc_gene_lens usePfx (coordsOfTable tbl) (idmapOfTable tbl) = .ok res ∧
      ∀ p ∈ tbl, ∀ g ∈ p.2, alistGet res (emitGid usePfx p.1 g.1) =
        some ((g.2.2 : ℤ) - (g.2.1 : ℤ) + 1) := by
  have hidm : ∀ p ∈ tbl, alistGet (idmapOfTable tbl) p.1 = some (p.2.map Prod.fst) := by
    intro p hp
    have hmem : (p.1, p.2.map Prod.fst) ∈ idmapOfTable tbl := by
      simp only [idmapOfTable, List.mem_map]
      exact ⟨p, hp, rfl⟩
    have hnd : ((idmapOfTable tbl).map Prod.fst).Nodup := by
      simpa [idmapOfTable, List.map_map, Function.comp] using hnames
    exact (alistGet_mem _ hnd _ _).mp hmem
  obtain ⟨res, hok, _, hC⟩ := calcContigs_spec usePfx (idmapOfTable tbl) tbl [] hidm hsz
  exact ⟨res, hok, hC hids⟩

/-- Claim C9 (witness): the amended statement at the concrete GeneIndex
with contig n and gene g spanning [10, 20]. -/
theorem calc_gene_lens_spec_witness :
    ∃ res, calc_gene_lens false (coordsOfTable [(['n'], [(['g'], 10, 20)])])
        (idmapOfTable [(['n'], [(['g'], 10, 20)])]) = .ok res ∧
      ∀ p ∈ ([(['n'], [(['g'], 10, 20)])] : List (Str × List (Str × ℕ × ℕ))), ∀ g ∈ p.2,
        alistGet res (emitGid false p.1 g.1) = some ((g.2.2 : ℤ) - (g.2.1 : ℤ) + 1) :=
  calc_gene_lens_spec false [(['n'], [(['g'], 10, 20)])]
    (by decide) (by decide) (by decide)

structure AlnRec where
  query : Str
  subject : Str
  length : ℕ
  beg : ℕ
  ed : ℕ
deriving DecidableEq, Repr

def ordinalIngest (n : ℕ) : ℕ → Option Str → ℕ → List (ℕ × AlnRec) →
    List (Option AlnRec) → List (List (ℕ × AlnRec))
  | _, _, _, cur, [] => [cur]
  | i, prev, tgt, cur, none :: rest => ordinalIngest n (i + 1) prev tgt cur rest
  | i, prev, tgt, cur, some r :: rest =>
    if r.length = 0 then ordinalIngest n (i + 1) prev tgt cur rest
    else if some r.query ≠ prev ∧ tgt ≤ i then
      cur :: ordinalIngest n (i + 1) (some r.query) (i + n) [(i, r)] rest
    else ordinalIngest n (i + 1) (some r.query) tgt (cur ++ [(i, r)]) rest

def ordinalChunks (n : ℕ) (lines : List (Option AlnRec)) : List (List (ℕ × AlnRec)) :=
  ordinalIngest n 0 none n [] lines

def ingestedFrom : ℕ → List (Option AlnRec) → List (ℕ × AlnRec)
  | _, [] => []
  | i, none :: rest => ingestedFrom (i + 1) rest
  | i, some r :: rest =>
    if r.length = 0 then ingestedFrom (i + 1) rest
    else (i, r) :: ingestedFrom (i + 1) rest

def chunkQDiff (c d : List (ℕ × AlnRec)) : Prop :=
  ∀ x, c.getLast? = some x → ∀ y, d.head? = some y → x.2.query ≠ y.2.query

def headTag (c : List (ℕ × AlnRec)) : Option ℕ := c.head?.map Prod.fst

theorem ordinalIngest_spec (n : ℕ) :
    ∀ (lines : List (Option AlnRec)) (i v : ℕ) (prev : Option Str)
      (cur : List (ℕ × AlnRec)),
      prev = cur.getLast?.map (fun a => a.2.query) →
      ((ordinalIngest n i prev (v + n) cur lines).join =
          cur ++ ingestedFrom i lines ∧
        (∃ ext, (ordinalIngest n i prev (v + n) cur lines).head? = some (cur ++ ext)) ∧
        (∀ c ∈ (ordinalIngest n i prev (v + n) cur lines).tail, c ≠ []) ∧
        List.Chain' chunkQDiff (ordinalIngest n i prev (v + n) cur lines) ∧
        List.Chain' (fun a b => a + n ≤ b)
          (v :: (ordinalIngest n i prev (v + n) cur lines).tail.filterMap headTag)) := by
  intro lines
  induction lines with
  | nil =>
    intro i v prev cur hprev
    refine ⟨by simp [ordinalIngest, ingestedFrom], ⟨[], by simp [ordinalIngest]⟩,
      by simp [ordinalIngest], by simp [ordinalIngest], by simp [ordinalIngest]⟩
  | cons line rest ih =>
    intro i v prev cur hprev
    match line with
    | none =>
      simpa only [ordinalIngest, ingestedFrom] using ih (i + 1) v prev cur hprev
    | some r =>
      by_cases hlen : r.length = 0
      · simpa only [ordinalIngest, ingestedFrom, if_pos hlen] using
          ih (i + 1) v prev cur hprev
      · by_cases hfl : (some r.query ≠ prev ∧ v + n ≤ i)
        · obtain ⟨hJ, ⟨ext, hH⟩, hT, hQ, hS⟩ :=
            ih (i + 1) i (some r.query) [(i, r)] (by simp)
          obtain ⟨a, l, hrec⟩ : ∃ a l,
              ordinalIngest n (i + 1) (some r.query) (i + n) [(i, r)] rest = a :: l := by
            cases hcase : ordinalIngest n (i + 1) (some r.query) (i + n) [(i, r)] rest with
            | nil => rw [hcase] at hH; simp at hH
            | cons a l => exact ⟨a, l, rfl⟩
          rw [hrec] at hJ hH hT hQ hS
          have ha : a = (i, r) :: ext := by simpa using hH
          simp only [ordinalIngest, if_neg hlen, if_pos hfl, hrec]
          refine ⟨?_, ⟨[], by simp⟩, ?_, ?_, ?_⟩
          · have hjc : (cur :: a :: l).join = cur ++ (a :: l).join := rfl
            rw [hjc, hJ]
            simp [ingestedFrom, if_neg hlen]
          · intro c hc
            rcases List.mem_cons.mp hc with h | h
            · subst h; rw [ha]; simp
            · exact hT c h
          · rw [List.chain'_cons']
            constructor
            · intro b hb
              rw [Option.mem_def, List.head?_cons, Option.some.injEq] at hb
              subst hb
              intro x hx y hy
              rw [ha] at hy
              simp only [List.head?_cons, Option.some.injEq] at hy
              subst hy
              have : prev = some (x.2.query) := by rw [hprev, hx]; rfl
              intro hEq
              exact hfl.1 (by rw [this, hEq])
            · exact hQ
          · have htag : headTag a = some i := by rw [ha]; rfl
            simp only [List.tail_cons, List.filterMap_cons, htag]
            rw [List.chain'_cons]
            exact ⟨hfl.2, hS⟩
        · have hlast : some r.query = ((cur ++ [(i, r)]).getLast?).map
              (fun a => a.2.query) := by simp
          obtain ⟨hJ, ⟨ext, hH⟩, hT, hQ, hS⟩ :=
            ih (i + 1) v (some r.query) (cur ++ [(i, r)]) hlast
          simp only [ordinalIngest, if_neg hlen, if_neg hfl]
          refine ⟨?_, ⟨(i, r) :: ext, ?_⟩, hT, hQ, hS⟩
          · rw [hJ]
            simp only [ingestedFrom, if_neg hlen]
            simp
          · rw [hH]
            simp

/-- Claim C4 (counterexample): with chunk target N = 2 and three input
lines (a record for query a, an unparseable line, a record for query b),
the flush triggers at line index 2 because the line counter includes the
skipped line, so the first (non-final) chunk holds only 1 < 2 records. -/
theorem ordinal_chunk_size_cex :
    (ordinalChunks 2 [some ⟨['a'], ['s'], 5, 1, 6⟩, none,
        some ⟨['b'], ['s'], 5, 1, 6⟩]).map List.length = [1, 1] ∧ (1 : ℕ) < 2 := by
  constructor
  · rfl
  · decide

/-- Claim C4 (amended): the ingest loop flushes exactly when the current
record's query differs from the previous ingested record's query and the
current line index — which counts every input line, including skipped
unparseable or zero-length ones — has reached the target (N initially,
trigger line + N after each flush). Hence the chunks concatenate, in
order, to exactly the ingested records; a maximal run of consecutive
same-query records is never split across two chunks (adjacent chunks
meet at a query change); and successive flush-trigger line indices are
at least N apart (so a non-final chunk spans at least N lines, though it
may hold fewer than N records). -/
theorem ordinalChunks_flush_spec (n : ℕ) (lines : List (Option AlnRec)) :
    (ordinalChunks n lines).join = ingestedFrom 0 lines ∧
    ordinalChunks n lines ≠ [] ∧
    (∀ c ∈ (ordinalChunks n lines).tail, c ≠ []) ∧
    List.Chain' chunkQDiff (ordinalChunks n lines) ∧
    List.Chain' (fun a b => a + n ≤ b)
      (0 :: (ordinalChunks n lines).tail.filterMap headTag) := by
  have h := ordinalIngest_spec n lines 0 0 none [] (by simp)
  rw [Nat.zero_add] at h
  obtain ⟨hJ, ⟨ext, hH⟩, hT, hQ, hS⟩ := h
  simp only [ordinalChunks]
  refine ⟨by simpa using hJ, ?_, hT, hQ, hS⟩
  intro hnil
  rw [hnil] at hH
  simp at hH
